import Mathlib

/-!
# TimeWheel: a verification development of `timewheel.go`

Shallow embedding of the timing wheel of `src/timewheel.go`.

Modelling conventions
* `time.Duration` is an `Int` number of nanoseconds.  `int(d.Seconds())` is `seconds d`: the
  two `float64` operations of `Duration.Seconds` are modelled with their rounding, so the result
  is the code's `delaySeconds` also where it is one more than the truncated duration.
* Go `int` values (64 bits) are `Int`.  The only sums formed by the code are
  `currentPos + (delaySeconds-1)/intervalSeconds` and `currentPos + 1`, where
  `currentPos < slotNum` is bounded by the length of an allocated slice and
  `delaySeconds` by `2^63 / 10^9`, so 64-bit arithmetic never wraps there.
  Go's `/` and `%` on signed integers truncate toward zero: `Int.tdiv`, `Int.tmod`.
* A Go panic (division by zero, index out of range) is the result `none`.
* `interface{}` keys that the Go map can hold are values of a type `κ` with decidable
  equality, the nil interface being `none : Option κ`; these are the keys of `Task`, of the
  index and of `Event`.  A key of unhashable dynamic type (a slice, a map, a function) is
  `AnyKey.unhashable`: the methods on arbitrary keys are `addTaskAny` and `removeTaskAny`,
  which panic at the first map operation on such a key.  Payloads are values of a type `δ`.
* A bucket (`*list.List` of `*Task`) is a `List` of tasks, front first.
* `go tw.job(task.data)` is recorded: the functions that can fire tasks return
  the list of tasks whose callback was started, in the order of the `go` statements.
* The channels of the driver loop carry `Signal`s; the loop `start` consumes the
  sequence of signals in the order in which the `select` receives them.
-/

namespace Timewheel

/-- Task of `timewheel.go`.  The field `ptr` is ghost: it stands for the identity of the
allocation `&Task{...}` (tasks are handled by pointer in the source). -/
structure Task (κ δ : Type) where
  ptr : Nat
  delay : Int
  circle : Int
  key : Option κ
  data : δ
deriving DecidableEq, Repr

/-- TimeWheel of `timewheel.go` without the ticker and the channels.
`timer` is the Go map `map[interface{}]int`: `timer k = none` means that `k` is not a key
of the map.  `job` is the stored callback, a value of an arbitrary type `ι`. -/
structure TimeWheel (κ δ ι : Type) where
  interval : Int
  slots : List (List (Task κ δ))
  slotNum : Int
  currentPos : Int
  timer : Option κ → Option Int
  job : ι

/-- One nanosecond-count second: `time.Second`. -/
def Second : Int := 1000000000

/-- Quotient `a / b` of two naturals (`0 < b`) rounded to the nearest natural, ties to the even
one: the rounding of the IEEE 754 operations on `float64` significands. -/
def roundHalfEven (a b : Nat) : Nat :=
  let q := a / b
  let r := a % b
  if 2 * r < b then q
  else if b < 2 * r then q + 1
  else if q % 2 = 0 then q else q + 1

/-- Binade of the fraction `nsec / 10^9` for `0 < nsec < 10^9`: the least `j` from the start value
on with `10^9 ≤ nsec * 2^j`, so that `2^(-j) ≤ nsec / 10^9 < 2^(1-j)` when started at `1`. -/
def fracShift (nsec : Nat) : Nat → Nat → Nat
  | 0, j => j
  | fuel + 1, j => if 10 ^ 9 ≤ nsec * 2 ^ j then j else fracShift nsec fuel (j + 1)

/-- Binade of the whole seconds `0 < sec`: the greatest `e` from the start value on with
`2^e ≤ sec`. -/
def binade (sec : Nat) : Nat → Nat → Nat
  | 0, e => e
  | fuel + 1, e => if 2 ^ (e + 1) ≤ sec then binade sec fuel (e + 1) else e

/-- The conversion `int(d.Seconds())` of a non-negative duration of `d` nanoseconds.  In Go,
`Seconds` is `sec := d / Second; nsec := d % Second; return float64(sec) + float64(nsec)/1e9`.
Both conversions to `float64` are exact (`sec < 2^53`, `nsec < 10^9`); the division and the
addition round to the nearest `float64` (53-bit significand, ties to even), and `int(..)`
truncates:
* `float64(nsec)/1e9` is `m / 2^(52+j)` with `m` the rounded 53-bit significand;
* the sum lies in `[2^e, 2^(e+1)]` for `2^e ≤ sec < 2^(e+1)`, where the `float64` values are the
  multiples of `2^(e-52)`: the sum is `s / 2^(52-e)` with `s` the rounded significand.
The durations of the program are 64-bit (`sec < 2^34`, so `e ≤ 33`). -/
def secondsNat (d : Nat) : Nat :=
  let sec := d / 10 ^ 9
  let nsec := d % 10 ^ 9
  if nsec = 0 then sec
  else
    let j := fracShift nsec 64 1
    let m := roundHalfEven (nsec * 2 ^ (52 + j)) (10 ^ 9)
    if sec = 0 then m / 2 ^ (52 + j)
    else
      let e := binade sec 64 0
      let s := roundHalfEven (sec * 2 ^ (52 + j) + m) (2 ^ (j + e))
      s / 2 ^ (52 - e)

/-- The conversion `int(d.Seconds())` of a duration to whole seconds.  For a negative duration
`d / Second` and `d % Second` are both non-positive in Go and every `float64` operation is
symmetric in the sign, so the result is the negated conversion of `-d`.  The result is the
truncation of the duration to whole seconds except when the addition rounds up to the next whole
second, which happens from `2^24` seconds on for fractions within a few nanoseconds of the next
second (`16777216999999999` nanoseconds give `16777217`). -/
def seconds (d : Int) : Int :=
  if d < 0 then -((secondsNat (-d).toNat : Nat) : Int) else ((secondsNat d.toNat : Nat) : Int)

/-- Go map `delete(m, k)`. -/
def mapDelete {κ : Type} [DecidableEq κ] (m : Option κ → Option Int) (k : Option κ) :
    Option κ → Option Int :=
  fun x => if x = k then none else m x

/-- Go map assignment `m[k] = v`. -/
def mapSet {κ : Type} [DecidableEq κ] (m : Option κ → Option Int) (k : Option κ) (v : Int) :
    Option κ → Option Int :=
  fun x => if x = k then some v else m x

/-- The loop of `initSlot`: `n` fresh empty lists. -/
def initSlot {κ δ : Type} : Nat → List (List (Task κ δ))
  | 0 => []
  | n + 1 => [] :: initSlot n

/-- New of `timewheel.go`; `job = none` is the nil function value, the result `none` is the
nil wheel.  The slice of `slotNum` buckets is taken to be allocated: running out of memory for
a huge `slotNum` is outside the model. -/
def New {κ δ ι : Type} (interval : Int) (slotNum : Int) (job : Option ι) : Option (TimeWheel κ δ ι) :=
  match job with
  | none => none
  | some j =>
    if interval ≤ 0 ∨ slotNum ≤ 0 then none
    else some
      { interval := interval
        slots := initSlot slotNum.toNat
        slotNum := slotNum
        currentPos := 0
        timer := fun _ => none
        job := j }

/-- The method getPositionAndCircle; `none` is the division-by-zero panic. -/
def getPositionAndCircle {κ δ ι : Type} (tw : TimeWheel κ δ ι) (d : Int) : Option (Int × Int) :=
  let delaySeconds := seconds d
  let intervalSeconds := seconds tw.interval
  if intervalSeconds = 0 ∨ tw.slotNum = 0 then none
  else
    let pos := Int.tmod (tw.currentPos + Int.tdiv (delaySeconds - 1) intervalSeconds) tw.slotNum
    let circle := Int.tdiv (Int.tdiv delaySeconds intervalSeconds) tw.slotNum
    some (pos, circle)

/-- The method addTask; `none` is a panic (division by zero in the placement, or
`tw.slots[pos]` out of range).  The key of the task is one the Go map can hold (nil or of
hashable dynamic type); `addTaskAny` is the method on arbitrary keys, with the panic of the map
write `tw.timer[task.key] = pos` for an unhashable key. -/
def addTask {κ δ ι : Type} [DecidableEq κ] (tw : TimeWheel κ δ ι) (task : Task κ δ) :
    Option (TimeWheel κ δ ι) :=
  match getPositionAndCircle tw task.delay with
  | none => none
  | some (p, c) =>
    if p < 0 then none
    else
      match tw.slots[p.toNat]? with
      | none => none
      | some l =>
        some
          { tw with
            slots := tw.slots.set p.toNat (l ++ [{ task with circle := c }])
            timer := if task.key ≠ none then mapSet tw.timer task.key p else tw.timer }

/-- The loop of scanAndRunTask over the bucket `l`, with the key index threaded through.
Result: the bucket after the scan, the key index after the scan, and the tasks whose callback
was started (`go tw.job(task.data)`), in scan order. -/
def scanAndRunTask {κ δ : Type} [DecidableEq κ] (timer : Option κ → Option Int) :
    List (Task κ δ) → List (Task κ δ) × (Option κ → Option Int) × List (Task κ δ)
  | [] => ([], timer, [])
  | task :: rest =>
    if task.circle > 0 then
      let r := scanAndRunTask timer rest
      ({ task with circle := task.circle - 1 } :: r.1, r.2.1, r.2.2)
    else
      let r := scanAndRunTask (if task.key ≠ none then mapDelete timer task.key else timer) rest
      (r.1, r.2.1, task :: r.2.2)

/-- The method tickHandler: scans the bucket under the cursor and advances the cursor.
Returns the new wheel and the fired tasks. -/
def tickHandler {κ δ ι : Type} [DecidableEq κ] (tw : TimeWheel κ δ ι) :
    Option (TimeWheel κ δ ι × List (Task κ δ)) :=
  if tw.currentPos < 0 then none
  else
    match tw.slots[tw.currentPos.toNat]? with
    | none => none
    | some l =>
      let r := scanAndRunTask tw.timer l
      if tw.slotNum = 0 then none
      else
        some
          ({ tw with
             slots := tw.slots.set tw.currentPos.toNat r.1
             timer := r.2.1
             currentPos := Int.tmod (tw.currentPos + 1) tw.slotNum }, r.2.2)

/-- The loop of removeTask over the bucket.  With `container/list`, `l.Remove(i)` clears
`i.next` and `i.list`, so the following `i.Next()` is nil and the loop ends after the first
task whose key matches.  Result: whether a task was unlinked, and the bucket afterwards. -/
def removeScan {κ δ : Type} [DecidableEq κ] (key : Option κ) :
    List (Task κ δ) → Bool × List (Task κ δ)
  | [] => (false, [])
  | task :: rest =>
    if task.key = key then (true, rest)
    else
      let r := removeScan key rest
      (r.1, task :: r.2)

/-- The method removeTask; `none` is the panic of `tw.slots[pos]` out of range.  The key is one
the Go map can hold (nil or of hashable dynamic type); `removeTaskAny` is the method on
arbitrary keys, with the panic of the map read `tw.timer[key]` for an unhashable key. -/
def removeTask {κ δ ι : Type} [DecidableEq κ] (tw : TimeWheel κ δ ι) (key : Option κ) :
    Option (TimeWheel κ δ ι) :=
  match tw.timer key with
  | none => some tw
  | some p =>
    if p < 0 then none
    else
      match tw.slots[p.toNat]? with
      | none => none
      | some l =>
        let r := removeScan key l
        some
          { tw with
            slots := tw.slots.set p.toNat r.2
            timer := if r.1 then mapDelete tw.timer key else tw.timer }

/-- An `interface{}` value passed as a key.  `hashable key` is the nil interface (`none`) or a
value of a comparable dynamic type (`some k`): the keys a Go map can hold.  `unhashable` is a
value whose dynamic type is a slice, a map or a function, such as `[]int{1}`: the Go runtime
panics (hash of unhashable type) on every map read and map write with such a key, also on an
empty map. -/
inductive AnyKey (κ : Type) where
  | hashable (key : Option κ)
  | unhashable

/-- The method removeTask on an arbitrary key.  Its first statement is the map read
`pos, ok := tw.timer[key]`, which panics for an unhashable key whatever the index holds; for
every other key the method is `removeTask`. -/
def removeTaskAny {κ δ ι : Type} [DecidableEq κ] (tw : TimeWheel κ δ ι) :
    AnyKey κ → Option (TimeWheel κ δ ι)
  | AnyKey.unhashable => none
  | AnyKey.hashable key => removeTask tw key

/-- The method addTask on the task `&Task{delay, key, data}` with an arbitrary key.  An
unhashable key is not nil, so after the position computation and the `PushBack` (which panic or
not as in `addTask`) the method reaches the map write `tw.timer[task.key] = pos`, which panics:
it returns on no path.  For every other key the method is `addTask`. -/
def addTaskAny {κ δ ι : Type} [DecidableEq κ] (tw : TimeWheel κ δ ι) (ptr : Nat) (delay : Int)
    (key : AnyKey κ) (data : δ) : Option (TimeWheel κ δ ι) :=
  match key with
  | AnyKey.unhashable => none
  | AnyKey.hashable k => addTask tw ⟨ptr, delay, 0, k, data⟩

/-- The three state-changing cases of the `select` in `start`. -/
inductive Event (κ δ : Type) where
  | tick
  | add (task : Task κ δ)
  | remove (key : Option κ)

/-- What the `select` in `start` can receive: an event, or the stop signal. -/
inductive Signal (κ δ : Type) where
  | event (e : Event κ δ)
  | stop

/-- One iteration of the loop of `start` for a state-changing case: the new wheel and the tasks
fired by that iteration. -/
def step {κ δ ι : Type} [DecidableEq κ] (tw : TimeWheel κ δ ι) :
    Event κ δ → Option (TimeWheel κ δ ι × List (Task κ δ))
  | Event.tick => tickHandler tw
  | Event.add task => (addTask tw task).map (fun w => (w, []))
  | Event.remove key => (removeTask tw key).map (fun w => (w, []))

/-- The driver processing a sequence of events one at a time, in order; the fired tasks are
accumulated in firing order. -/
def run {κ δ ι : Type} [DecidableEq κ] (tw : TimeWheel κ δ ι) :
    List (Event κ δ) → Option (TimeWheel κ δ ι × List (Task κ δ))
  | [] => some (tw, [])
  | e :: es =>
    match step tw e with
    | none => none
    | some (tw1, fired) =>
      match run tw1 es with
      | none => none
      | some (tw2, fired2) => some (tw2, fired ++ fired2)

/-- The loop of the method start on the sequence of signals that its `select` receives: it
returns at the first stop signal, leaving the later signals unprocessed. -/
def start {κ δ ι : Type} [DecidableEq κ] (tw : TimeWheel κ δ ι) :
    List (Signal κ δ) → Option (TimeWheel κ δ ι × List (Task κ δ))
  | [] => some (tw, [])
  | Signal.stop :: _ => some (tw, [])
  | Signal.event e :: ss =>
    match step tw e with
    | none => none
    | some (tw1, fired) =>
      match start tw1 ss with
      | none => none
      | some (tw2, fired2) => some (tw2, fired ++ fired2)

/-- The public method AddTask: the requests it sends on `addTaskChannel` (none for a
non-positive delay).  `ptr` is the identity of the task it allocates. -/
def AddTask {κ δ : Type} (ptr : Nat) (delay : Int) (key : Option κ) (data : δ) :
    List (Signal κ δ) :=
  if delay ≤ 0 then []
  else [Signal.event (Event.add { ptr := ptr, delay := delay, circle := 0, key := key, data := data })]

/-- The public method RemoveTask: the request it sends on `removeTaskChannel`. -/
def RemoveTask {κ δ : Type} (key : Option κ) : List (Signal κ δ) :=
  [Signal.event (Event.remove key)]

/-- The public method Stop: the signal it sends on `stopChanel`. -/
def Stop {κ δ : Type} : List (Signal κ δ) :=
  [Signal.stop]

/-! ## Specification-side definitions -/

/-- Placement of the specification: `(c + floor((D - 1) / I)) mod N`, with the quotient taken
in the rationals, `floor` the mathematical floor and `mod` the non-negative remainder. -/
def specPosition (c D I N : Int) : Int :=
  (c + ⌊((D : ℚ) - 1) / (I : ℚ)⌋) % N

/-- Revolution count of the specification: `floor(D / I / N)` with rational quotients. -/
def specRevolution (D I N : Int) : Int :=
  ⌊(D : ℚ) / (I : ℚ) / (N : ℚ)⌋

/-- The tick, counted from the admission, on which a task of delay `d` is due in a wheel of
interval `i`: `ceil(delaySeconds / intervalSeconds)`, written `(delaySeconds - 1) / intervalSeconds + 1`
with flooring division. -/
def dueTick (d i : Int) : Int :=
  (seconds d - 1) / seconds i + 1

/-- Structural invariant of a wheel: a positive slot count, as many buckets as slots, the
cursor inside the wheel, every index entry naming a slot of the wheel, and no index entry for
the nil key. -/
def WF {κ δ ι : Type} (tw : TimeWheel κ δ ι) : Prop :=
  0 < tw.slotNum ∧ tw.slots.length = tw.slotNum.toNat ∧
    0 ≤ tw.currentPos ∧ tw.currentPos < tw.slotNum ∧
    (∀ k p, tw.timer k = some p → 0 ≤ p ∧ p < tw.slotNum) ∧ tw.timer none = none

/-- Number of tick events in a sequence of events. -/
def ticksIn {κ δ : Type} : List (Event κ δ) → Nat
  | [] => 0
  | Event.tick :: es => ticksIn es + 1
  | Event.add _ :: es => ticksIn es
  | Event.remove _ :: es => ticksIn es

/-- All pending tasks of a wheel, bucket after bucket. -/
def allTasks {κ δ ι : Type} (tw : TimeWheel κ δ ι) : List (Task κ δ) :=
  tw.slots.flatten

/-- The identities of the pending tasks of a wheel. -/
def pendingPtrs {κ δ ι : Type} (tw : TimeWheel κ δ ι) : List Nat :=
  (allTasks tw).map Task.ptr

/-- Number of ticks of an event sequence that drain slot `p`, for a wheel of `N` slots whose
cursor is at `c` when the sequence starts. -/
def visits {κ δ : Type} (N : Int) (p : Int) : Int → List (Event κ δ) → Nat
  | _, [] => 0
  | c, Event.tick :: es => (if c = p then 1 else 0) + visits N p ((c + 1) % N) es
  | c, Event.add _ :: es => visits N p c es
  | c, Event.remove _ :: es => visits N p c es

/-- Allocation freshness: every task admitted by the sequence has an identity that is not in
`used` and was not admitted earlier in the sequence. -/
def FreshPtrs {κ δ : Type} : List Nat → List (Event κ δ) → Prop
  | _, [] => True
  | used, Event.add t :: es => t.ptr ∉ used ∧ FreshPtrs (t.ptr :: used) es
  | used, Event.tick :: es => FreshPtrs used es
  | used, Event.remove _ :: es => FreshPtrs used es

/-- Task `t` is resident in the bucket of slot `p`. -/
def resident {κ δ ι : Type} (tw : TimeWheel κ δ ι) (p : Nat) (t : Task κ δ) : Prop :=
  ∃ l, tw.slots[p]? = some l ∧ t ∈ l

/-- The wheel of the scenario of the specification, as `New Second 10` returns it: interval
one second, ten empty buckets, cursor 0. -/
def scenarioWheel : TimeWheel Nat Nat Unit :=
  { interval := Second
    slots := initSlot 10
    slotNum := 10
    currentPos := 0
    timer := fun _ => none
    job := () }

/-- The wheel of the scenario after admitting, at cursor 0, task B with delay 25s and key 1:
B sits in slot 4 with revolution count 2. -/
def scenarioWheelB : TimeWheel Nat Nat Unit :=
  { interval := Second
    slots := [[], [], [], [], [⟨1, 25 * Second, 2, some 1, 0⟩], [], [], [], [], []]
    slotNum := 10
    currentPos := 0
    timer := mapSet (fun _ => none) (some 1) 4
    job := () }

/-- A wheel as `New (Second / 2) 10` returns it: interval half a second, ten empty buckets. -/
def halfSecondWheel : TimeWheel Nat Nat Unit :=
  { interval := 500000000
    slots := initSlot 10
    slotNum := 10
    currentPos := 0
    timer := fun _ => none
    job := () }

theorem roundHalfEven_ge (a b : Nat) : a / b ≤ roundHalfEven a b := by
  unfold roundHalfEven
  simp only
  split_ifs <;> omega

theorem roundHalfEven_twice_le (a b : Nat) (hb : 0 < b) :
    2 * (b * roundHalfEven a b) ≤ 2 * a + b := by
  have h1 : b * (a / b) + a % b = a := Nat.div_add_mod a b
  have h2 : a % b < b := Nat.mod_lt a hb
  unfold roundHalfEven
  simp only
  split_ifs <;> first | omega | (rw [Nat.mul_add, Nat.mul_one]; omega)

theorem roundHalfEven_lt (a b T : Nat) (hb : 0 < b) (h : 2 * a + b < 2 * (b * T)) :
    roundHalfEven a b < T := by
  have h1 := roundHalfEven_twice_le a b hb
  by_contra hc
  have h2 : b * T ≤ b * roundHalfEven a b := Nat.mul_le_mul_left b (Nat.le_of_not_lt hc)
  omega

theorem binade_le (sec : Nat) (fuel e : Nat) :
    binade sec fuel e = e ∨ 2 ^ binade sec fuel e ≤ sec := by
  induction fuel generalizing e with
  | zero => left; rfl
  | succ n ih =>
    unfold binade
    split_ifs with h
    · rcases ih (e + 1) with h1 | h1
      · right; rw [h1]; exact h
      · right; exact h1
    · left; rfl

/-- Below `2^24` seconds the conversion is the truncation to whole seconds: the sum
`float64(sec) + float64(nsec)/1e9` is too far below `sec + 1` to be rounded up to it. -/
theorem secondsNat_trunc (d : Nat) (h : d < 2 ^ 24 * 10 ^ 9) : secondsNat d = d / 10 ^ 9 := by
  unfold secondsNat
  simp only
  split_ifs with h0 h1
  · rfl
  · -- below one second
    rw [h1]
    apply Nat.div_eq_of_lt
    set j := fracShift (d % 10 ^ 9) 64 1
    have hP : 2 ^ (52 + j) = 2 ^ 52 * 2 ^ j := by rw [pow_add]
    have hW : 0 < 2 ^ j := Nat.pow_pos (by norm_num)
    have hn : d % 10 ^ 9 < 10 ^ 9 := Nat.mod_lt _ (by norm_num)
    apply roundHalfEven_lt _ _ _ (by norm_num)
    have h3 : d % 10 ^ 9 * 2 ^ (52 + j) ≤ (10 ^ 9 - 1) * 2 ^ (52 + j) :=
      Nat.mul_le_mul_right _ (by omega)
    rw [hP] at h3 ⊢
    generalize 2 ^ j = W at *
    generalize d % 10 ^ 9 * (2 ^ 52 * W) = A at *
    norm_num at *
    omega
  · set sec := d / 10 ^ 9 with hsec
    set nsec := d % 10 ^ 9 with hnsec
    set j := fracShift nsec 64 1
    set e := binade sec 64 0 with he
    have hs : sec < 2 ^ 24 := by
      rw [hsec]; apply Nat.div_lt_of_lt_mul; rw [Nat.mul_comm]; exact h
    have he23 : e ≤ 23 := by
      rcases binade_le sec 64 0 with h2 | h2
      · rw [he, h2]; omega
      · have : 2 ^ e < 2 ^ 24 := lt_of_le_of_lt h2 hs
        have := (Nat.pow_lt_pow_iff_right (by norm_num : 1 < 2)).mp this
        omega
    have hn : nsec < 10 ^ 9 := Nat.mod_lt _ (by norm_num)
    set m := roundHalfEven (nsec * 2 ^ (52 + j)) (10 ^ 9) with hm
    have hm2 := roundHalfEven_twice_le (nsec * 2 ^ (52 + j)) (10 ^ 9) (by norm_num)
    rw [← hm] at hm2
    have h3 : nsec * 2 ^ (52 + j) ≤ (10 ^ 9 - 1) * 2 ^ (52 + j) :=
      Nat.mul_le_mul_right _ (by omega)
    have hQY : 2 ^ (52 + j) = 2 ^ (52 - e) * 2 ^ (j + e) := by
      rw [← pow_add]; congr 1; omega
    have hY : 2 ^ (j + e) ≤ 2 ^ 23 * 2 ^ j := by
      rw [← pow_add]; exact Nat.pow_le_pow_right (by norm_num) (by omega)
    have hP : 2 ^ (52 + j) = 2 ^ 52 * 2 ^ j := by rw [pow_add]
    have hW : 0 < 2 ^ j := Nat.pow_pos (by norm_num)
    have hYpos : 0 < 2 ^ (j + e) := Nat.pow_pos (by norm_num)
    have hQpos : 0 < 2 ^ (52 - e) := Nat.pow_pos (by norm_num)
    set Q := 2 ^ (52 - e)
    set Y := 2 ^ (j + e)
    set P := 2 ^ (52 + j)
    set s := roundHalfEven (sec * P + m) Y with hsdef
    have hlow : sec * Q ≤ s := by
      refine le_trans ?_ (roundHalfEven_ge _ _)
      rw [Nat.le_div_iff_mul_le hYpos, hQY]
      have : sec * Q * Y = sec * (Q * Y) := by ring
      omega
    have hhigh : s < (sec + 1) * Q := by
      apply roundHalfEven_lt _ _ _ hYpos
      have e1 : Y * ((sec + 1) * Q) = sec * P + P := by rw [hQY]; ring
      rw [e1]
      generalize 2 ^ j = W at *
      generalize nsec * P = A at *
      generalize sec * P = B at *
      norm_num at *
      omega
    apply Nat.div_eq_of_lt_le
    · exact hlow
    · exact hhigh

/-- For durations of less than `2^24` seconds in absolute value `int(d.Seconds())` is the
duration truncated toward zero to whole seconds. -/
theorem seconds_eq_tdiv (d : Int) (h1 : -(2 ^ 24 * Second) < d) (h2 : d < 2 ^ 24 * Second) :
    seconds d = Int.tdiv d Second := by
  unfold seconds
  unfold Second at *
  split_ifs with hneg
  · obtain ⟨n, hn⟩ : ∃ n : Nat, d = -(n : Int) := ⟨(-d).toNat, by omega⟩
    subst hn
    have hlt : n < 2 ^ 24 * 10 ^ 9 := by norm_num at *; omega
    rw [neg_neg, Int.toNat_ofNat, secondsNat_trunc n hlt, Int.neg_tdiv]
    congr 1
  · obtain ⟨n, hn⟩ : ∃ n : Nat, d = (n : Int) := ⟨d.toNat, by omega⟩
    subst hn
    have hlt : n < 2 ^ 24 * 10 ^ 9 := by norm_num at *; omega
    rw [Int.toNat_ofNat, secondsNat_trunc n hlt]
    rfl

/-- From `2^24` seconds on the conversion can exceed the truncation: for the duration of
`2^24` seconds and `999999999` nanoseconds `int(d.Seconds())` is `2^24 + 1`, and the wheel of
the scenario (interval 1s, 10 slots, cursor 0) places that delay at position 6 with revolution
count 1677721, due on tick `2^24 + 1`. -/
theorem seconds_rounds_up :
    seconds 16777216999999999 = 16777217 ∧
    Int.tdiv 16777216999999999 Second = 16777216 ∧
    getPositionAndCircle scenarioWheel 16777216999999999 = some (6, 1677721) ∧
    dueTick 16777216999999999 scenarioWheel.interval = 16777217 := by decide

/-! ### Arithmetic of the placement -/

theorem floor_ratDiv (a b : Int) (hb : 0 < b) : ⌊(a : ℚ) / (b : ℚ)⌋ = a / b := by
  obtain ⟨n, rfl⟩ := Int.eq_ofNat_of_zero_le hb.le
  exact_mod_cast Rat.floor_intCast_div_natCast a n

theorem floor_ratDiv_sub (a b : Int) (hb : 0 < b) :
    ⌊((a : ℚ) - 1) / (b : ℚ)⌋ = (a - 1) / b := by
  have := floor_ratDiv (a - 1) b hb
  push_cast at this
  exact this

theorem ediv_ediv_pos (a b n : Int) (hb : 0 < b) (hn : 0 < n) : a / b / n = a / (b * n) := by
  apply eq_of_forall_le_iff
  intro z
  rw [Int.le_ediv_iff_mul_le hn, Int.le_ediv_iff_mul_le hb,
    Int.le_ediv_iff_mul_le (Int.mul_pos hb hn)]
  have : z * n * b = z * (b * n) := by ring
  rw [this]

theorem floor_ratDiv_div (a b n : Int) (hb : 0 < b) (hn : 0 < n) :
    ⌊(a : ℚ) / (b : ℚ) / (n : ℚ)⌋ = a / b / n := by
  rw [div_div, ediv_ediv_pos a b n hb hn]
  have := floor_ratDiv a (b * n) (Int.mul_pos hb hn)
  push_cast at this
  exact this

theorem emod_small (N a : Int) (_hN : 0 < N) (h1 : -N ≤ a) (h2 : a < N) :
    (0 ≤ a ∧ a % N = a) ∨ (a < 0 ∧ a % N = a + N) := by
  by_cases h : 0 ≤ a
  · exact Or.inl ⟨h, Int.emod_eq_of_lt h h2⟩
  · refine Or.inr ⟨by omega, ?_⟩
    rw [← Int.add_emod_self]
    exact Int.emod_eq_of_lt (by omega) (by omega)

theorem succ_emod (N c : Int) (h0 : 0 ≤ c) (h1 : c < N) :
    (c + 1 < N ∧ (c + 1) % N = c + 1) ∨ (c + 1 = N ∧ (c + 1) % N = 0) := by
  by_cases h : c + 1 < N
  · exact Or.inl ⟨h, Int.emod_eq_of_lt (by omega) h⟩
  · have e : c + 1 = N := by omega
    exact Or.inr ⟨e, by rw [e, Int.emod_self]⟩

theorem specPosition_eq (c D I N : Int) (hI : 0 < I) : specPosition c D I N = (c + (D - 1) / I) % N := by
  unfold specPosition
  rw [floor_ratDiv_sub D I hI]

theorem specRevolution_eq (D I N : Int) (hI : 0 < I) (hN : 0 < N) :
    specRevolution D I N = D / I / N := by
  unfold specRevolution
  exact floor_ratDiv_div D I N hI hN

/-! ### The two bucket loops -/

theorem scanAndRunTask_fst {κ δ : Type} [DecidableEq κ] (l : List (Task κ δ)) :
    ∀ (timer : Option κ → Option Int),
      (scanAndRunTask timer l).1 =
        (l.filter (fun t => decide (t.circle > 0))).map
          (fun t => { t with circle := t.circle - 1 }) := by
  induction l with
  | nil => intro timer; rfl
  | cons t rest ih =>
    intro timer
    unfold scanAndRunTask
    by_cases hc : t.circle > 0
    · simp only [hc, if_true, decide_True, List.filter_cons_of_pos, List.map_cons]
      rw [ih timer]
    · simp only [hc, if_false, decide_False, Bool.false_eq_true, not_false_eq_true,
        List.filter_cons_of_neg]
      rw [ih]

theorem scanAndRunTask_fired {κ δ : Type} [DecidableEq κ] (l : List (Task κ δ)) :
    ∀ (timer : Option κ → Option Int),
      (scanAndRunTask timer l).2.2 = l.filter (fun t => !decide (t.circle > 0)) := by
  induction l with
  | nil => intro timer; rfl
  | cons t rest ih =>
    intro timer
    unfold scanAndRunTask
    by_cases hc : t.circle > 0
    · simp only [hc, if_true, decide_True, Bool.not_true, Bool.false_eq_true,
        not_false_eq_true, List.filter_cons_of_neg]
      rw [ih timer]
    · simp only [hc, if_false, decide_False, Bool.not_false, List.filter_cons_of_pos]
      rw [ih]

theorem scanAndRunTask_timer {κ δ : Type} [DecidableEq κ] (l : List (Task κ δ)) :
    ∀ (timer : Option κ → Option Int) (x : Option κ),
      (scanAndRunTask timer l).2.1 x =
        if x ≠ none ∧ x ∈ (scanAndRunTask timer l).2.2.map Task.key then none else timer x := by
  induction l with
  | nil => intro timer x; simp [scanAndRunTask]
  | cons t rest ih =>
    intro timer x
    by_cases hc : t.circle > 0
    · have h1 : (scanAndRunTask timer (t :: rest)).2.1 = (scanAndRunTask timer rest).2.1 := by
        simp only [scanAndRunTask, hc, if_true]
      have h2 : (scanAndRunTask timer (t :: rest)).2.2 = (scanAndRunTask timer rest).2.2 := by
        simp only [scanAndRunTask, hc, if_true]
      rw [h1, h2]
      exact ih timer x
    · have h1 : (scanAndRunTask timer (t :: rest)).2.1 =
          (scanAndRunTask (if t.key ≠ none then mapDelete timer t.key else timer) rest).2.1 := by
        simp only [scanAndRunTask, hc, if_false]
      have h2 : (scanAndRunTask timer (t :: rest)).2.2 =
          t :: (scanAndRunTask timer rest).2.2 := by
        simp only [scanAndRunTask, hc, if_false]
        rw [scanAndRunTask_fired rest _, scanAndRunTask_fired rest timer]
      rw [h1, h2, ih]
      rw [scanAndRunTask_fired rest _, ← scanAndRunTask_fired rest timer]
      simp only [List.map_cons, List.mem_cons]
      by_cases hx : x = none
      · subst hx
        by_cases hk : t.key = none
        · simp [hk]
        · have : ¬ (none = t.key) := fun h => hk h.symm
          simp [hk, mapDelete, this]
      · by_cases hm : x ∈ (scanAndRunTask timer rest).2.2.map Task.key
        · simp [hx, hm]
        · by_cases hxt : x = t.key
          · have hk : ¬ t.key = none := hxt ▸ hx
            subst hxt
            simp [hk, mapDelete]
          · by_cases hk : t.key = none
            · simp [hk, hxt, hm, hx]
            · simp [hk, mapDelete, hxt, hm, hx]

theorem scanAndRunTask_perm {κ δ β : Type} [DecidableEq κ] (fm : Task κ δ → Option β)
    (hfm : ∀ (t : Task κ δ) (c : Int), fm { t with circle := c } = fm t)
    (l : List (Task κ δ)) :
    ∀ (timer : Option κ → Option Int),
      List.Perm (l.filterMap fm)
        ((scanAndRunTask timer l).1.filterMap fm ++ (scanAndRunTask timer l).2.2.filterMap fm) := by
  induction l with
  | nil => intro timer; simp [scanAndRunTask]
  | cons t rest ih =>
    intro timer
    by_cases hc : t.circle > 0
    · have h1 : (scanAndRunTask timer (t :: rest)).1 =
          { t with circle := t.circle - 1 } :: (scanAndRunTask timer rest).1 := by
        simp only [scanAndRunTask, hc, if_true]
      have h2 : (scanAndRunTask timer (t :: rest)).2.2 = (scanAndRunTask timer rest).2.2 := by
        simp only [scanAndRunTask, hc, if_true]
      rw [h1, h2]
      have e : List.filterMap fm ({ t with circle := t.circle - 1 } :: (scanAndRunTask timer rest).1) =
          List.filterMap fm [t] ++ List.filterMap fm (scanAndRunTask timer rest).1 := by
        rw [← List.filterMap_append]
        simp only [List.singleton_append, List.filterMap_cons, hfm]
      have e0 : List.filterMap fm (t :: rest) = List.filterMap fm [t] ++ List.filterMap fm rest := by
        rw [← List.filterMap_append]
        rfl
      rw [e, e0, List.append_assoc]
      exact List.Perm.append_left _ (ih timer)
    · have h1 : (scanAndRunTask timer (t :: rest)).1 = (scanAndRunTask timer rest).1 := by
        simp only [scanAndRunTask, hc, if_false]
        rw [scanAndRunTask_fst rest _, scanAndRunTask_fst rest timer]
      have h2 : (scanAndRunTask timer (t :: rest)).2.2 =
          t :: (scanAndRunTask timer rest).2.2 := by
        simp only [scanAndRunTask, hc, if_false]
        rw [scanAndRunTask_fired rest _, scanAndRunTask_fired rest timer]
      rw [h1, h2]
      have e : List.filterMap fm (t :: (scanAndRunTask timer rest).2.2) =
          List.filterMap fm [t] ++ List.filterMap fm (scanAndRunTask timer rest).2.2 := by
        rw [← List.filterMap_append]
        rfl
      have e0 : List.filterMap fm (t :: rest) = List.filterMap fm [t] ++ List.filterMap fm rest := by
        rw [← List.filterMap_append]
        rfl
      rw [e, e0]
      refine List.Perm.trans (List.Perm.append_left _ (ih timer)) ?_
      rw [← List.append_assoc, ← List.append_assoc]
      exact List.Perm.append_right _ List.perm_append_comm

theorem removeScan_keeps {κ δ : Type} [DecidableEq κ] (key : Option κ) (l : List (Task κ δ))
    (t : Task κ δ) (ht : t ∈ l) (hk : t.key ≠ key) : t ∈ (removeScan key l).2 := by
  induction l with
  | nil => simp at ht
  | cons x rest ih =>
    unfold removeScan
    by_cases hx : x.key = key
    · simp only [hx, if_true]
      rcases List.mem_cons.mp ht with h | h
      · exact absurd (h ▸ hx) hk
      · exact h
    · simp only [hx, if_false]
      rcases List.mem_cons.mp ht with h | h
      · exact h ▸ List.mem_cons_self _ _
      · exact List.mem_cons_of_mem _ (ih h)

theorem removeScan_sublist {κ δ : Type} [DecidableEq κ] (key : Option κ) (l : List (Task κ δ)) :
    List.Sublist (removeScan key l).2 l := by
  induction l with
  | nil => exact List.Sublist.refl _
  | cons x rest ih =>
    unfold removeScan
    by_cases hx : x.key = key
    · simp only [hx, if_true]
      exact List.sublist_cons_self _ _
    · simp only [hx, if_false]
      exact List.Sublist.cons₂ _ ih

/-! ### Inversion of the methods and the structural invariant -/

theorem initSlot_length {κ δ : Type} (n : Nat) : (initSlot n : List (List (Task κ δ))).length = n := by
  induction n with
  | zero => rfl
  | succ n ih => simp [initSlot, ih]

theorem initSlot_mem {κ δ : Type} (n : Nat) (l : List (Task κ δ)) (h : l ∈ initSlot n) : l = [] := by
  induction n with
  | zero => simp [initSlot] at h
  | succ n ih =>
    simp only [initSlot, List.mem_cons] at h
    rcases h with h | h
    · exact h
    · exact ih h

theorem New_inv {κ δ ι : Type} (interval slotNum : Int) (job : Option ι) (tw : TimeWheel κ δ ι)
    (h : New interval slotNum job = some tw) :
    0 < interval ∧ 0 < slotNum ∧ job = some tw.job ∧ tw.interval = interval ∧
      tw.slots = initSlot slotNum.toNat ∧ tw.slotNum = slotNum ∧ tw.currentPos = 0 ∧
      tw.timer = fun _ => none := by
  unfold New at h
  cases job with
  | none => simp at h
  | some j =>
    by_cases hb : interval ≤ 0 ∨ slotNum ≤ 0
    · simp [hb] at h
    · simp only [hb, if_false, Option.some.injEq] at h
      subst h
      refine ⟨by omega, by omega, rfl, rfl, rfl, rfl, rfl, rfl⟩

theorem New_WF {κ δ ι : Type} (interval slotNum : Int) (job : Option ι) (tw : TimeWheel κ δ ι)
    (h : New interval slotNum job = some tw) : WF tw := by
  obtain ⟨_, hN, _, _, hs, hn, hc, ht⟩ := New_inv interval slotNum job tw h
  refine ⟨by omega, ?_, by omega, by omega, ?_, by rw [ht]⟩
  · rw [hs, initSlot_length, hn]
  · intro k p hk
    rw [ht] at hk
    simp at hk

theorem scanAndRunTask_timer_sub {κ δ : Type} [DecidableEq κ] (l : List (Task κ δ)) :
    ∀ (timer : Option κ → Option Int) (k : Option κ) (p : Int),
      (scanAndRunTask timer l).2.1 k = some p → timer k = some p := by
  induction l with
  | nil => intro timer k p h; exact h
  | cons t rest ih =>
    intro timer k p h
    unfold scanAndRunTask at h
    by_cases hc : t.circle > 0
    · simp only [hc, if_true] at h
      exact ih timer k p h
    · simp only [hc, if_false] at h
      have h2 := ih _ k p h
      by_cases hk : t.key ≠ none
      · simp only [hk, if_true, ne_eq, not_false_eq_true, mapDelete] at h2
        by_cases hx : k = t.key
        · simp [hx] at h2
        · simpa [hx] using h2
      · simpa [hk] using h2

theorem tickHandler_inv {κ δ ι : Type} [DecidableEq κ] (tw tw1 : TimeWheel κ δ ι)
    (fired : List (Task κ δ)) (h : tickHandler tw = some (tw1, fired)) :
    ∃ l, 0 ≤ tw.currentPos ∧ tw.slots[tw.currentPos.toNat]? = some l ∧ tw.slotNum ≠ 0 ∧
      tw1.interval = tw.interval ∧ tw1.slotNum = tw.slotNum ∧ tw1.job = tw.job ∧
      tw1.slots = tw.slots.set tw.currentPos.toNat (scanAndRunTask tw.timer l).1 ∧
      tw1.timer = (scanAndRunTask tw.timer l).2.1 ∧
      tw1.currentPos = Int.tmod (tw.currentPos + 1) tw.slotNum ∧
      fired = (scanAndRunTask tw.timer l).2.2 := by
  unfold tickHandler at h
  by_cases hc : tw.currentPos < 0
  · simp [hc] at h
  · simp only [hc, if_false] at h
    cases hl : tw.slots[tw.currentPos.toNat]? with
    | none => simp [hl] at h
    | some l =>
      simp only [hl] at h
      by_cases hn : tw.slotNum = 0
      · simp [hn] at h
      · simp only [hn, if_false, Option.some.injEq, Prod.mk.injEq] at h
        obtain ⟨h1, h2⟩ := h
        subst h1 h2
        exact ⟨l, by omega, rfl, hn, rfl, rfl, rfl, rfl, rfl, rfl, rfl⟩

theorem tickHandler_some {κ δ ι : Type} [DecidableEq κ] (tw : TimeWheel κ δ ι) (h : WF tw) :
    ∃ tw1 fired, tickHandler tw = some (tw1, fired) := by
  obtain ⟨hN, hlen, hc0, hcN, _, _⟩ := h
  have hlt : tw.currentPos.toNat < tw.slots.length := by omega
  have hc : ¬ tw.currentPos < 0 := by omega
  have hn : ¬ tw.slotNum = 0 := by omega
  unfold tickHandler
  simp only [hc, if_false, List.getElem?_eq_getElem hlt, hn]
  exact ⟨_, _, rfl⟩

theorem tickHandler_WF {κ δ ι : Type} [DecidableEq κ] (tw tw1 : TimeWheel κ δ ι)
    (fired : List (Task κ δ)) (hwf : WF tw) (h : tickHandler tw = some (tw1, fired)) :
    WF tw1 ∧ tw1.slotNum = tw.slotNum ∧
      tw1.currentPos = (tw.currentPos + 1) % tw.slotNum := by
  obtain ⟨l, _, _, _, _, hsn, _, hs, ht, hcp, _⟩ := tickHandler_inv tw tw1 fired h
  obtain ⟨hN, hlen, hc0, hcN, hidx, hnil⟩ := hwf
  have hmod : tw1.currentPos = (tw.currentPos + 1) % tw.slotNum := by
    rw [hcp]
    exact Int.tmod_eq_emod (by omega) (by omega)
  refine ⟨⟨by omega, ?_, ?_, ?_, ?_, by rw [ht, scanAndRunTask_timer]; simp [hnil]⟩, hsn, hmod⟩
  · rw [hs, List.length_set, hlen, hsn]
  · rw [hmod]
    exact Int.emod_nonneg _ (by omega)
  · rw [hmod, hsn]
    exact Int.emod_lt_of_pos _ hN
  · intro k p hk
    rw [ht] at hk
    rw [hsn]
    exact hidx k p (scanAndRunTask_timer_sub l tw.timer k p hk)

theorem addTask_inv {κ δ ι : Type} [DecidableEq κ] (tw tw1 : TimeWheel κ δ ι) (task : Task κ δ)
    (h : addTask tw task = some tw1) :
    ∃ p c l, getPositionAndCircle tw task.delay = some (p, c) ∧ 0 ≤ p ∧
      tw.slots[p.toNat]? = some l ∧
      tw1.interval = tw.interval ∧ tw1.slotNum = tw.slotNum ∧ tw1.job = tw.job ∧
      tw1.currentPos = tw.currentPos ∧
      tw1.slots = tw.slots.set p.toNat (l ++ [{ task with circle := c }]) ∧
      tw1.timer = (if task.key ≠ none then mapSet tw.timer task.key p else tw.timer) := by
  unfold addTask at h
  cases hg : getPositionAndCircle tw task.delay with
  | none => simp [hg] at h
  | some pc =>
    obtain ⟨p, c⟩ := pc
    simp only [hg] at h
    by_cases hp : p < 0
    · simp [hp] at h
    · simp only [hp, if_false] at h
      cases hl : tw.slots[p.toNat]? with
      | none => simp [hl] at h
      | some l =>
        simp only [hl, Option.some.injEq] at h
        subst h
        exact ⟨p, c, l, rfl, by omega, hl, rfl, rfl, rfl, rfl, rfl, rfl⟩

theorem addTask_WF {κ δ ι : Type} [DecidableEq κ] (tw tw1 : TimeWheel κ δ ι) (task : Task κ δ)
    (hwf : WF tw) (h : addTask tw task = some tw1) :
    WF tw1 ∧ tw1.slotNum = tw.slotNum ∧ tw1.currentPos = tw.currentPos := by
  obtain ⟨p, c, l, _, hp0, hl, _, hsn, _, hcp, hs, ht⟩ := addTask_inv tw tw1 task h
  obtain ⟨hN, hlen, hc0, hcN, hidx, hnil⟩ := hwf
  have hplt : p.toNat < tw.slots.length := by
    by_contra hcon
    rw [List.getElem?_eq_none (by omega)] at hl
    simp at hl
  refine ⟨⟨by omega, ?_, by omega, by omega, ?_, ?_⟩, hsn, hcp⟩
  rotate_left 2
  · rw [ht]
    by_cases hkey : task.key = none
    · simp [hkey, hnil]
    · have : ¬ (none = task.key) := fun h => hkey h.symm
      simp [hkey, mapSet, this, hnil]
  · rw [hs, List.length_set, hlen, hsn]
  · intro k q hk
    rw [ht] at hk
    rw [hsn]
    by_cases hkey : task.key ≠ none
    · simp only [hkey, if_true, ne_eq, not_false_eq_true, mapSet] at hk
      by_cases hx : k = task.key
      · simp only [hx, if_true, Option.some.injEq] at hk
        omega
      · simp only [hx, if_false] at hk
        exact hidx k q hk
    · simp only [hkey, if_false] at hk
      exact hidx k q hk

theorem removeTask_absent {κ δ ι : Type} [DecidableEq κ] (tw : TimeWheel κ δ ι) (key : Option κ)
    (h : tw.timer key = none) : removeTask tw key = some tw := by
  unfold removeTask
  simp [h]

theorem removeTask_inv {κ δ ι : Type} [DecidableEq κ] (tw tw1 : TimeWheel κ δ ι) (key : Option κ)
    (p : Int) (hk : tw.timer key = some p) (h : removeTask tw key = some tw1) :
    ∃ l, 0 ≤ p ∧ tw.slots[p.toNat]? = some l ∧
      tw1.interval = tw.interval ∧ tw1.slotNum = tw.slotNum ∧ tw1.job = tw.job ∧
      tw1.currentPos = tw.currentPos ∧
      tw1.slots = tw.slots.set p.toNat (removeScan key l).2 ∧
      tw1.timer = (if (removeScan key l).1 then mapDelete tw.timer key else tw.timer) := by
  unfold removeTask at h
  simp only [hk] at h
  by_cases hp : p < 0
  · simp [hp] at h
  · simp only [hp, if_false] at h
    cases hl : tw.slots[p.toNat]? with
    | none => simp [hl] at h
    | some l =>
      simp only [hl, Option.some.injEq] at h
      subst h
      exact ⟨l, by omega, rfl, rfl, rfl, rfl, rfl, rfl, rfl⟩

theorem removeTask_some {κ δ ι : Type} [DecidableEq κ] (tw : TimeWheel κ δ ι) (key : Option κ)
    (h : WF tw) : ∃ tw1, removeTask tw key = some tw1 := by
  obtain ⟨hN, hlen, hc0, hcN, hidx, _⟩ := h
  cases hk : tw.timer key with
  | none => exact ⟨tw, removeTask_absent tw key hk⟩
  | some p =>
    obtain ⟨hp0, hpN⟩ := hidx key p hk
    have hlt : p.toNat < tw.slots.length := by omega
    have hp : ¬ p < 0 := by omega
    unfold removeTask
    simp only [hk, hp, if_false, List.getElem?_eq_getElem hlt]
    exact ⟨_, rfl⟩

theorem removeTask_WF {κ δ ι : Type} [DecidableEq κ] (tw tw1 : TimeWheel κ δ ι) (key : Option κ)
    (hwf : WF tw) (h : removeTask tw key = some tw1) :
    WF tw1 ∧ tw1.slotNum = tw.slotNum ∧ tw1.currentPos = tw.currentPos := by
  cases hk : tw.timer key with
  | none =>
    rw [removeTask_absent tw key hk, Option.some.injEq] at h
    subst h
    exact ⟨hwf, rfl, rfl⟩
  | some p =>
    obtain ⟨l, _, _, _, hsn, _, hcp, hs, ht⟩ := removeTask_inv tw tw1 key p hk h
    obtain ⟨hN, hlen, hc0, hcN, hidx, hnil⟩ := hwf
    refine ⟨⟨by omega, ?_, by omega, by omega, ?_, ?_⟩, hsn, hcp⟩
    rotate_left 2
    · rw [ht]
      by_cases hf : (removeScan key l).1 = true
      · simp only [hf, if_true, mapDelete]
        by_cases hx : none = key
        · simp [hx]
        · simp [hx, hnil]
      · simp [hf, hnil]
    · rw [hs, List.length_set, hlen, hsn]
    · intro k q hq
      rw [ht] at hq
      rw [hsn]
      by_cases hf : (removeScan key l).1 = true
      · simp only [hf, if_true, mapDelete] at hq
        by_cases hx : k = key
        · simp [hx] at hq
        · simp only [hx, if_false] at hq
          exact hidx k q hq
      · simp only [hf] at hq
        exact hidx k q hq

theorem step_WF {κ δ ι : Type} [DecidableEq κ] (tw tw1 : TimeWheel κ δ ι) (e : Event κ δ)
    (fired : List (Task κ δ)) (hwf : WF tw) (h : step tw e = some (tw1, fired)) :
    WF tw1 ∧ tw1.slotNum = tw.slotNum := by
  cases e with
  | tick =>
    have := tickHandler_WF tw tw1 fired hwf h
    exact ⟨this.1, this.2.1⟩
  | add task =>
    simp only [step, Option.map_eq_some', Prod.mk.injEq] at h
    obtain ⟨w, hw, rfl, _⟩ := h
    have := addTask_WF tw w task hwf hw
    exact ⟨this.1, this.2.1⟩
  | remove key =>
    simp only [step, Option.map_eq_some', Prod.mk.injEq] at h
    obtain ⟨w, hw, rfl, _⟩ := h
    have := removeTask_WF tw w key hwf hw
    exact ⟨this.1, this.2.1⟩

theorem run_cons_inv {κ δ ι : Type} [DecidableEq κ] (tw tw2 : TimeWheel κ δ ι) (e : Event κ δ)
    (es : List (Event κ δ)) (fired : List (Task κ δ)) (h : run tw (e :: es) = some (tw2, fired)) :
    ∃ tw1 f1 f2, step tw e = some (tw1, f1) ∧ run tw1 es = some (tw2, f2) ∧
      fired = f1 ++ f2 := by
  unfold run at h
  cases hs : step tw e with
  | none => simp [hs] at h
  | some r =>
    obtain ⟨tw1, f1⟩ := r
    simp only [hs] at h
    cases hr : run tw1 es with
    | none => simp [hr] at h
    | some r2 =>
      obtain ⟨tw3, f2⟩ := r2
      simp only [hr, Option.some.injEq, Prod.mk.injEq] at h
      obtain ⟨h1, h2⟩ := h
      subst h1 h2
      exact ⟨tw1, f1, f2, rfl, hr, rfl⟩

theorem run_isSome {κ δ ι : Type} [DecidableEq κ] (tw : TimeWheel κ δ ι) (es : List (Event κ δ))
    (h : (run tw es).isSome = true) : ∃ tw1 fired, run tw es = some (tw1, fired) := by
  cases hr : run tw es with
  | none => simp [hr] at h
  | some r => exact ⟨r.1, r.2, rfl⟩

theorem run_WF {κ δ ι : Type} [DecidableEq κ] (es : List (Event κ δ)) :
    ∀ (tw tw1 : TimeWheel κ δ ι) (fired : List (Task κ δ)), WF tw →
      run tw es = some (tw1, fired) → WF tw1 ∧ tw1.slotNum = tw.slotNum := by
  induction es with
  | nil =>
    intro tw tw1 fired hwf h
    simp only [run, Option.some.injEq, Prod.mk.injEq] at h
    obtain ⟨rfl, _⟩ := h
    exact ⟨hwf, rfl⟩
  | cons e es ih =>
    intro tw tw1 fired hwf h
    obtain ⟨tw2, f1, f2, hs, hr, _⟩ := run_cons_inv tw tw1 e es fired h
    obtain ⟨hwf2, hn2⟩ := step_WF tw tw2 e f1 hwf hs
    obtain ⟨hwf1, hn1⟩ := ih tw2 tw1 f2 hwf2 hr
    exact ⟨hwf1, by rw [hn1, hn2]⟩

/-! ### Effect of the methods on the pending tasks -/

theorem slots_split {α : Type} :
    ∀ (L : List (List α)) (i : Nat) (l : List α), L[i]? = some l →
      ∃ A B, L = A ++ l :: B ∧ ∀ l1, L.set i l1 = A ++ l1 :: B := by
  intro L
  induction L with
  | nil => intro i l h; simp at h
  | cons x xs ih =>
    intro i l h
    cases i with
    | zero =>
      simp only [List.getElem?_cons_zero, Option.some.injEq] at h
      subst h
      exact ⟨[], xs, rfl, fun l1 => rfl⟩
    | succ n =>
      simp only [List.getElem?_cons_succ] at h
      obtain ⟨A, B, hA, hset⟩ := ih n l h
      refine ⟨x :: A, B, by rw [hA]; rfl, ?_⟩
      intro l1
      simp only [List.set_cons_succ, hset l1, List.cons_append]

theorem flatten_set_perm {α β : Type} (fm : α → Option β) (L : List (List α)) (i : Nat)
    (l l1 : List α) (X : List β) (h : L[i]? = some l)
    (hp : List.Perm (l.filterMap fm) (l1.filterMap fm ++ X)) :
    List.Perm (L.flatten.filterMap fm) ((L.set i l1).flatten.filterMap fm ++ X) := by
  obtain ⟨A, B, hA, hset⟩ := slots_split L i l h
  rw [hset l1, hA]
  simp only [List.flatten_append, List.flatten_cons, List.filterMap_append, List.append_assoc]
  refine List.Perm.append_left _ ?_
  refine List.Perm.trans (List.Perm.append_right _ hp) ?_
  simp only [List.append_assoc]
  exact List.Perm.append_left _ List.perm_append_comm

theorem flatten_set_perm_grow {α β : Type} (fm : α → Option β) (L : List (List α)) (i : Nat)
    (l l1 : List α) (X : List β) (h : L[i]? = some l)
    (hp : List.Perm (l1.filterMap fm) (l.filterMap fm ++ X)) :
    List.Perm ((L.set i l1).flatten.filterMap fm) (L.flatten.filterMap fm ++ X) := by
  obtain ⟨A, B, hA, hset⟩ := slots_split L i l h
  rw [hset l1, hA]
  simp only [List.flatten_append, List.flatten_cons, List.filterMap_append, List.append_assoc]
  refine List.Perm.append_left _ ?_
  refine List.Perm.trans (List.Perm.append_right _ hp) ?_
  simp only [List.append_assoc]
  exact List.Perm.append_left _ List.perm_append_comm

theorem flatten_set_sublist {α : Type} (L : List (List α)) (i : Nat) (l l1 : List α)
    (h : L[i]? = some l) (hs : List.Sublist l1 l) :
    List.Sublist (L.set i l1).flatten L.flatten := by
  obtain ⟨A, B, hA, hset⟩ := slots_split L i l h
  rw [hset l1, hA]
  simp only [List.flatten_append, List.flatten_cons]
  exact List.Sublist.append (List.Sublist.refl _) (List.Sublist.append hs (List.Sublist.refl _))

theorem resident_mem_allTasks {κ δ ι : Type} (tw : TimeWheel κ δ ι) (p : Nat) (t : Task κ δ)
    (h : resident tw p t) : t ∈ allTasks tw := by
  obtain ⟨l, hl, ht⟩ := h
  exact List.mem_flatten.mpr ⟨l, List.mem_iff_getElem?.mpr ⟨p, hl⟩, ht⟩

theorem mem_allTasks_resident {κ δ ι : Type} (tw : TimeWheel κ δ ι) (t : Task κ δ)
    (h : t ∈ allTasks tw) : ∃ p, resident tw p t := by
  obtain ⟨l, hl, ht⟩ := List.mem_flatten.mp h
  obtain ⟨n, hn⟩ := List.mem_iff_getElem?.mp hl
  exact ⟨n, l, hn, ht⟩

theorem tickHandler_perm {κ δ ι β : Type} [DecidableEq κ] (fm : Task κ δ → Option β)
    (hfm : ∀ (t : Task κ δ) (c : Int), fm { t with circle := c } = fm t)
    (tw tw1 : TimeWheel κ δ ι) (fired : List (Task κ δ)) (h : tickHandler tw = some (tw1, fired)) :
    List.Perm ((allTasks tw).filterMap fm)
      ((allTasks tw1).filterMap fm ++ fired.filterMap fm) := by
  obtain ⟨l, _, hl, _, _, _, _, hs, _, _, hf⟩ := tickHandler_inv tw tw1 fired h
  unfold allTasks
  rw [hs, hf]
  exact flatten_set_perm fm tw.slots _ l _ _ hl (scanAndRunTask_perm fm hfm l tw.timer)

theorem addTask_perm {κ δ ι β : Type} [DecidableEq κ] (fm : Task κ δ → Option β)
    (hfm : ∀ (t : Task κ δ) (c : Int), fm { t with circle := c } = fm t)
    (tw tw1 : TimeWheel κ δ ι) (task : Task κ δ) (h : addTask tw task = some tw1) :
    List.Perm ((allTasks tw1).filterMap fm) ((allTasks tw).filterMap fm ++ [task].filterMap fm) := by
  obtain ⟨p, c, l, _, _, hl, _, _, _, _, hs, _⟩ := addTask_inv tw tw1 task h
  unfold allTasks
  rw [hs]
  refine flatten_set_perm_grow fm tw.slots _ l _ _ hl ?_
  rw [List.filterMap_append]
  simp only [List.filterMap_cons, hfm, List.filterMap_nil]
  exact List.Perm.refl _

theorem removeTask_sublist {κ δ ι : Type} [DecidableEq κ] (tw tw1 : TimeWheel κ δ ι)
    (key : Option κ) (h : removeTask tw key = some tw1) :
    List.Sublist (allTasks tw1) (allTasks tw) := by
  cases hk : tw.timer key with
  | none =>
    rw [removeTask_absent tw key hk, Option.some.injEq] at h
    subst h
    exact List.Sublist.refl _
  | some p =>
    obtain ⟨l, _, hl, _, _, _, _, hs, _⟩ := removeTask_inv tw tw1 key p hk h
    unfold allTasks
    rw [hs]
    exact flatten_set_sublist tw.slots _ l _ hl (removeScan_sublist key l)

theorem tickHandler_resident_other {κ δ ι : Type} [DecidableEq κ] (tw tw1 : TimeWheel κ δ ι)
    (fired : List (Task κ δ)) (h : tickHandler tw = some (tw1, fired)) (p : Nat)
    (t : Task κ δ) (hp : p ≠ tw.currentPos.toNat) (hres : resident tw p t) :
    resident tw1 p t := by
  obtain ⟨l, _, _, _, _, _, _, hs, _, _, _⟩ := tickHandler_inv tw tw1 fired h
  obtain ⟨l0, hl0, ht0⟩ := hres
  refine ⟨l0, ?_, ht0⟩
  rw [hs, List.getElem?_set_ne (Ne.symm hp)]
  exact hl0

theorem tickHandler_resident_cur {κ δ ι : Type} [DecidableEq κ] (tw tw1 : TimeWheel κ δ ι)
    (fired : List (Task κ δ)) (h : tickHandler tw = some (tw1, fired))
    (t : Task κ δ) (hres : resident tw tw.currentPos.toNat t) :
    (0 < t.circle → resident tw1 tw.currentPos.toNat { t with circle := t.circle - 1 }) ∧
    (¬ 0 < t.circle → t ∈ fired) := by
  obtain ⟨l, _, hl, _, _, _, _, hs, _, _, hf⟩ := tickHandler_inv tw tw1 fired h
  obtain ⟨l0, hl0, ht0⟩ := hres
  rw [hl] at hl0
  simp only [Option.some.injEq] at hl0
  subst hl0
  constructor
  · intro hc
    refine ⟨(scanAndRunTask tw.timer l).1, ?_, ?_⟩
    · rw [hs, List.getElem?_set_self (by
        exact (List.getElem?_eq_some.mp hl).1)]
    · rw [scanAndRunTask_fst]
      exact List.mem_map.mpr ⟨t, List.mem_filter.mpr ⟨ht0, by simpa using hc⟩, rfl⟩
  · intro hc
    rw [hf, scanAndRunTask_fired]
    exact List.mem_filter.mpr ⟨ht0, by simpa using hc⟩

theorem tickHandler_fired_sub {κ δ ι : Type} [DecidableEq κ] (tw tw1 : TimeWheel κ δ ι)
    (fired : List (Task κ δ)) (h : tickHandler tw = some (tw1, fired)) (x : Task κ δ)
    (hx : x ∈ fired) : resident tw tw.currentPos.toNat x ∧ ¬ 0 < x.circle := by
  obtain ⟨l, _, hl, _, _, _, _, _, _, _, hf⟩ := tickHandler_inv tw tw1 fired h
  rw [hf, scanAndRunTask_fired] at hx
  obtain ⟨hm, hc⟩ := List.mem_filter.mp hx
  exact ⟨⟨l, hl, hm⟩, by simpa using hc⟩

theorem addTask_resident {κ δ ι : Type} [DecidableEq κ] (tw tw1 : TimeWheel κ δ ι)
    (task : Task κ δ) (h : addTask tw task = some tw1) (p : Nat) (t : Task κ δ)
    (hres : resident tw p t) : resident tw1 p t := by
  obtain ⟨q, c, l, _, _, hl, _, _, _, _, hs, _⟩ := addTask_inv tw tw1 task h
  obtain ⟨l0, hl0, ht0⟩ := hres
  by_cases hpq : q.toNat = p
  · subst hpq
    rw [hl] at hl0
    simp only [Option.some.injEq] at hl0
    subst hl0
    refine ⟨l ++ [{ task with circle := c }], ?_, List.mem_append_left _ ht0⟩
    rw [hs, List.getElem?_set_self (List.getElem?_eq_some.mp hl).1]
  · refine ⟨l0, ?_, ht0⟩
    rw [hs, List.getElem?_set_ne hpq]
    exact hl0

theorem addTask_placed {κ δ ι : Type} [DecidableEq κ] (tw tw1 : TimeWheel κ δ ι)
    (task : Task κ δ) (h : addTask tw task = some tw1) :
    ∃ p c, getPositionAndCircle tw task.delay = some (p, c) ∧ 0 ≤ p ∧
      resident tw1 p.toNat { task with circle := c } ∧
      (task.key ≠ none → tw1.timer task.key = some p) ∧
      (∀ x, x ≠ task.key → tw1.timer x = tw.timer x) := by
  obtain ⟨q, c, l, hg, hq, hl, _, _, _, _, hs, ht⟩ := addTask_inv tw tw1 task h
  refine ⟨q, c, hg, hq, ⟨l ++ [{ task with circle := c }], ?_, by simp⟩, ?_, ?_⟩
  · rw [hs, List.getElem?_set_self (List.getElem?_eq_some.mp hl).1]
  · intro hk
    rw [ht]
    simp [hk, mapSet]
  · intro x hx
    rw [ht]
    by_cases hk : task.key = none
    · simp [hk]
    · simp [hk, mapSet, hx]

theorem removeTask_resident {κ δ ι : Type} [DecidableEq κ] (tw tw1 : TimeWheel κ δ ι)
    (key : Option κ) (h : removeTask tw key = some tw1) (p : Nat) (t : Task κ δ)
    (hk : t.key ≠ key) (hres : resident tw p t) : resident tw1 p t := by
  cases hkey : tw.timer key with
  | none =>
    rw [removeTask_absent tw key hkey, Option.some.injEq] at h
    subst h
    exact hres
  | some q =>
    obtain ⟨l, _, hl, _, _, _, _, hs, _⟩ := removeTask_inv tw tw1 key q hkey h
    obtain ⟨l0, hl0, ht0⟩ := hres
    by_cases hpq : q.toNat = p
    · subst hpq
      rw [hl] at hl0
      simp only [Option.some.injEq] at hl0
      subst hl0
      refine ⟨(removeScan key l).2, ?_, removeScan_keeps key l t ht0 hk⟩
      rw [hs, List.getElem?_set_self (List.getElem?_eq_some.mp hl).1]
    · refine ⟨l0, ?_, ht0⟩
      rw [hs, List.getElem?_set_ne hpq]
      exact hl0

/-- On delays and intervals of at least one second the truncating arithmetic of the code is
the flooring arithmetic. -/
theorem getPositionAndCircle_eq {κ δ ι : Type} (tw : TimeWheel κ δ ι) (d : Int)
    (hd : 1 ≤ seconds d) (hi : 1 ≤ seconds tw.interval) (hN : 0 < tw.slotNum)
    (hc : 0 ≤ tw.currentPos) :
    getPositionAndCircle tw d =
      some ((tw.currentPos + (seconds d - 1) / seconds tw.interval) % tw.slotNum,
        seconds d / seconds tw.interval / tw.slotNum) := by
  have h1 : ¬ (seconds tw.interval = 0 ∨ tw.slotNum = 0) := by omega
  have hq : 0 ≤ (seconds d - 1) / seconds tw.interval :=
    Int.ediv_nonneg (by omega) (by omega)
  have hq2 : 0 ≤ seconds d / seconds tw.interval := Int.ediv_nonneg (by omega) (by omega)
  have e1 : Int.tdiv (seconds d - 1) (seconds tw.interval) = (seconds d - 1) / seconds tw.interval :=
    Int.tdiv_eq_ediv (by omega) (by omega)
  have e2 : Int.tdiv (seconds d) (seconds tw.interval) = seconds d / seconds tw.interval :=
    Int.tdiv_eq_ediv (by omega) (by omega)
  have e3 : Int.tdiv (seconds d / seconds tw.interval) tw.slotNum =
      seconds d / seconds tw.interval / tw.slotNum := Int.tdiv_eq_ediv hq2 (by omega)
  have e4 : Int.tmod (tw.currentPos + (seconds d - 1) / seconds tw.interval) tw.slotNum =
      (tw.currentPos + (seconds d - 1) / seconds tw.interval) % tw.slotNum :=
    Int.tmod_eq_emod (by omega) (by omega)
  simp only [getPositionAndCircle, h1, if_false, e1, e2, e3, e4]

theorem addTask_some {κ δ ι : Type} [DecidableEq κ] (tw : TimeWheel κ δ ι) (task : Task κ δ)
    (hwf : WF tw) (hd : 1 ≤ seconds task.delay) (hi : 1 ≤ seconds tw.interval) :
    ∃ tw1, addTask tw task = some tw1 := by
  obtain ⟨hN, hlen, hc0, hcN, _, _⟩ := hwf
  have hg := getPositionAndCircle_eq tw task.delay hd hi hN hc0
  have h0 : 0 ≤ (tw.currentPos + (seconds task.delay - 1) / seconds tw.interval) % tw.slotNum :=
    Int.emod_nonneg _ (by omega)
  have h1 : (tw.currentPos + (seconds task.delay - 1) / seconds tw.interval) % tw.slotNum <
      tw.slotNum := Int.emod_lt_of_pos _ hN
  have hlt : ((tw.currentPos + (seconds task.delay - 1) / seconds tw.interval) %
      tw.slotNum).toNat < tw.slots.length := by omega
  have hneg : ¬ (tw.currentPos + (seconds task.delay - 1) / seconds tw.interval) % tw.slotNum < 0 := by
    omega
  unfold addTask
  simp only [hg, hneg, if_false, List.getElem?_eq_getElem hlt]
  exact ⟨_, rfl⟩

/-! ### Keys of the pending tasks -/

theorem run_observe {κ δ ι α : Type} [DecidableEq κ] (tw : TimeWheel κ δ ι)
    (es : List (Event κ δ)) (f : TimeWheel κ δ ι × List (Task κ δ) → α) (v : α)
    (h : (run tw es).map f = some v) :
    ∃ tw1 fired, run tw es = some (tw1, fired) ∧ f (tw1, fired) = v := by
  cases hr : run tw es with
  | none => simp [hr] at h
  | some r =>
    obtain ⟨w, g⟩ := r
    simp only [hr, Option.map_some', Option.some.injEq] at h
    exact ⟨w, g, rfl, h⟩

theorem filterMap_ptr {κ δ : Type} (l : List (Task κ δ)) :
    l.filterMap (fun t => some t.ptr) = l.map Task.ptr := by
  induction l with
  | nil => rfl
  | cons t rest ih => simp [List.filterMap_cons, ih]

theorem tickHandler_ptrs {κ δ ι : Type} [DecidableEq κ] (tw tw1 : TimeWheel κ δ ι)
    (fired : List (Task κ δ)) (h : tickHandler tw = some (tw1, fired)) :
    List.Perm (pendingPtrs tw) (pendingPtrs tw1 ++ fired.map Task.ptr) := by
  have := tickHandler_perm (fun t => some t.ptr) (fun _ _ => rfl) tw tw1 fired h
  simpa only [filterMap_ptr] using this

theorem addTask_ptrs {κ δ ι : Type} [DecidableEq κ] (tw tw1 : TimeWheel κ δ ι) (task : Task κ δ)
    (h : addTask tw task = some tw1) :
    List.Perm (pendingPtrs tw1) (pendingPtrs tw ++ [task.ptr]) := by
  have := addTask_perm (fun t => some t.ptr) (fun _ _ => rfl) tw tw1 task h
  simpa only [filterMap_ptr] using this

theorem removeTask_ptrs {κ δ ι : Type} [DecidableEq κ] (tw tw1 : TimeWheel κ δ ι)
    (key : Option κ) (h : removeTask tw key = some tw1) :
    List.Sublist (pendingPtrs tw1) (pendingPtrs tw) :=
  List.Sublist.map _ (removeTask_sublist tw tw1 key h)

theorem resident_ptr {κ δ ι : Type} (tw : TimeWheel κ δ ι) (p : Nat) (t : Task κ δ)
    (h : resident tw p t) : t.ptr ∈ pendingPtrs tw :=
  List.mem_map.mpr ⟨t, resident_mem_allTasks tw p t h, rfl⟩

theorem absent_stays {κ δ ι : Type} [DecidableEq κ] (es : List (Event κ δ)) :
    ∀ (tw tw1 : TimeWheel κ δ ι) (fired : List (Task κ δ)) (used : List Nat) (a : Nat),
      a ∈ used → a ∉ pendingPtrs tw → FreshPtrs used es → run tw es = some (tw1, fired) →
      a ∉ pendingPtrs tw1 ∧ a ∉ fired.map Task.ptr := by
  induction es with
  | nil =>
    intro tw tw1 fired used a _ hab _ h
    simp only [run, Option.some.injEq, Prod.mk.injEq] at h
    obtain ⟨rfl, rfl⟩ := h
    exact ⟨hab, by simp⟩
  | cons e es ih =>
    intro tw tw1 fired used a hau hab hfr h
    obtain ⟨tw2, f1, f2, hs, hr, hf⟩ := run_cons_inv tw tw1 e es fired h
    subst hf
    cases e with
    | tick =>
      have hp := tickHandler_ptrs tw tw2 f1 hs
      have hnot : a ∉ pendingPtrs tw2 ++ f1.map Task.ptr := fun hm => hab (hp.mem_iff.mpr hm)
      simp only [List.mem_append, not_or] at hnot
      obtain ⟨h1, h2⟩ := ih tw2 tw1 f2 used a hau hnot.1 hfr hr
      refine ⟨h1, ?_⟩
      simp only [List.map_append, List.mem_append, not_or]
      exact ⟨hnot.2, h2⟩
    | add task =>
      simp only [step, Option.map_eq_some', Prod.mk.injEq] at hs
      obtain ⟨w, hw, rfl, rfl⟩ := hs
      obtain ⟨hfresh, hfr2⟩ := hfr
      have hp := addTask_ptrs tw w task hw
      have hne : a ≠ task.ptr := fun hh => hfresh (hh ▸ hau)
      have hnot : a ∉ pendingPtrs w := by
        intro hm
        have := hp.mem_iff.mp hm
        simp only [List.mem_append, List.mem_singleton] at this
        rcases this with h1 | h1
        · exact hab h1
        · exact hne h1
      obtain ⟨h1, h2⟩ := ih w tw1 f2 (task.ptr :: used) a (List.mem_cons_of_mem _ hau) hnot hfr2 hr
      exact ⟨h1, by simpa using h2⟩
    | remove key =>
      simp only [step, Option.map_eq_some', Prod.mk.injEq] at hs
      obtain ⟨w, hw, rfl, rfl⟩ := hs
      have hnot : a ∉ pendingPtrs w := fun hm => hab ((removeTask_ptrs tw w key hw).subset hm)
      obtain ⟨h1, h2⟩ := ih w tw1 f2 used a hau hnot hfr hr
      exact ⟨h1, by simpa using h2⟩

theorem track_task {κ δ ι : Type} [DecidableEq κ] (es : List (Event κ δ)) :
    ∀ (tw tw1 : TimeWheel κ δ ι) (fired : List (Task κ δ)) (used : List Nat) (p : Nat)
      (t : Task κ δ),
      WF tw → (pendingPtrs tw).Nodup → (∀ a ∈ pendingPtrs tw, a ∈ used) → FreshPtrs used es →
      resident tw p t → 0 ≤ t.circle → (∀ k, t.key = some k → Event.remove (some k) ∉ es) →
      run tw es = some (tw1, fired) →
      ((visits tw.slotNum (p : Int) tw.currentPos es : Int) ≤ t.circle →
        resident tw1 p
            { t with circle := t.circle - (visits tw.slotNum (p : Int) tw.currentPos es : Int) } ∧
          t.ptr ∉ fired.map Task.ptr) ∧
      (t.circle < (visits tw.slotNum (p : Int) tw.currentPos es : Int) →
        t.ptr ∉ pendingPtrs tw1 ∧ (fired.map Task.ptr).count t.ptr = 1 ∧
          { t with circle := 0 } ∈ fired) := by
  induction es with
  | nil =>
    intro tw tw1 fired used p t _ _ _ _ hres hc _ h
    simp only [run, Option.some.injEq, Prod.mk.injEq] at h
    obtain ⟨rfl, rfl⟩ := h
    simp only [visits, Nat.cast_zero, sub_zero]
    exact ⟨fun _ => ⟨hres, by simp⟩, fun hlt => absurd hc (by omega)⟩
  | cons e es ih =>
    intro tw tw1 fired used p t hwf hnd hused hfr hres hc hnc h
    obtain ⟨tw2, f1, f2, hs, hr, hf⟩ := run_cons_inv tw tw1 e es fired h
    subst hf
    obtain ⟨hwf2, hn2⟩ := step_WF tw tw2 e f1 hwf hs
    have htu : t.ptr ∈ used := hused _ (resident_ptr tw p t hres)
    cases e with
    | tick =>
      have hcur := (tickHandler_WF tw tw2 f1 hwf hs).2.2
      have hp := tickHandler_ptrs tw tw2 f1 hs
      have hnd2 := (hp.nodup_iff).mp hnd
      obtain ⟨hndA, hndF, hdis⟩ := List.nodup_append.mp hnd2
      have hused2 : ∀ a ∈ pendingPtrs tw2, a ∈ used := fun a ha =>
        hused a (hp.mem_iff.mpr (List.mem_append_left _ ha))
      have hnc2 : ∀ k, t.key = some k → Event.remove (some k) ∉ es := fun k hk hm =>
        hnc k hk (List.mem_cons_of_mem _ hm)
      have hv : visits tw.slotNum (p : Int) tw.currentPos (Event.tick :: es) =
          (if tw.currentPos = (p : Int) then 1 else 0) +
            visits tw2.slotNum (p : Int) tw2.currentPos es := by
        rw [hn2, hcur]
        rfl
      rw [hv]
      by_cases hcp : tw.currentPos = (p : Int)
      · have hpn : tw.currentPos.toNat = p := by omega
        have hres0 : resident tw tw.currentPos.toNat t := hpn ▸ hres
        obtain ⟨hpos, hzero⟩ := tickHandler_resident_cur tw tw2 f1 hs t hres0
        simp only [hcp, if_true]
        by_cases hc0 : 0 < t.circle
        · have hres2 : resident tw2 p { t with circle := t.circle - 1 } := hpn ▸ hpos hc0
          obtain ⟨hA, hB⟩ := ih tw2 tw1 f2 used p { t with circle := t.circle - 1 } hwf2 hndA
            hused2 hfr hres2 (by simp only; omega) hnc2 hr
          have hnf1 : t.ptr ∉ f1.map Task.ptr := fun hm =>
            hdis (resident_ptr tw2 p _ hres2) hm
          constructor
          · intro hle
            obtain ⟨h1, h2⟩ := hA (by simp only; push_cast at hle; omega)
            refine ⟨?_, ?_⟩
            · have e : ({ t with circle := t.circle -
                  ((1 + visits tw2.slotNum (p : Int) tw2.currentPos es : Nat) : Int) } : Task κ δ) =
                  { ptr := t.ptr, delay := t.delay,
                    circle := t.circle - 1 - (visits tw2.slotNum (p : Int) tw2.currentPos es : Int),
                    key := t.key, data := t.data } := by
                congr 1
                push_cast
                ring
              rw [e]
              exact h1
            · simp only [List.map_append, List.mem_append, not_or]
              exact ⟨hnf1, h2⟩
          · intro hlt
            obtain ⟨h1, h2, h3⟩ := hB (by simp only; push_cast at hlt; omega)
            refine ⟨h1, ?_, List.mem_append_right _ h3⟩
            rw [List.map_append, List.count_append, List.count_eq_zero_of_not_mem hnf1,
              Nat.zero_add]
            exact h2
        · have htf : t ∈ f1 := hzero hc0
          have hc00 : t.circle = 0 := by omega
          have htp : t.ptr ∈ f1.map Task.ptr := List.mem_map.mpr ⟨t, htf, rfl⟩
          have hna : t.ptr ∉ pendingPtrs tw2 := fun hm => hdis hm htp
          obtain ⟨h1, h2⟩ := absent_stays es tw2 tw1 f2 used t.ptr htu hna hfr hr
          constructor
          · intro hle
            push_cast at hle
            omega
          · intro _
            refine ⟨h1, ?_, ?_⟩
            · rw [List.map_append, List.count_append, List.count_eq_zero_of_not_mem h2,
                List.count_eq_one_of_mem hndF htp]
            · have e : ({ t with circle := 0 } : Task κ δ) = t := by
                cases t
                simp only at hc00
                subst hc00
                rfl
              rw [e]
              exact List.mem_append_left _ htf
      · have hpn : p ≠ tw.currentPos.toNat := by
          obtain ⟨_, _, h0, _, _, _⟩ := hwf
          omega
        have hres2 := tickHandler_resident_other tw tw2 f1 hs p t hpn hres
        obtain ⟨hA, hB⟩ := ih tw2 tw1 f2 used p t hwf2 hndA hused2 hfr hres2 hc hnc2 hr
        have hnf1 : t.ptr ∉ f1.map Task.ptr := fun hm => hdis (resident_ptr tw2 p _ hres2) hm
        simp only [hcp, if_false, zero_add]
        constructor
        · intro hle
          obtain ⟨h1, h2⟩ := hA hle
          refine ⟨h1, ?_⟩
          simp only [List.map_append, List.mem_append, not_or]
          exact ⟨hnf1, h2⟩
        · intro hlt
          obtain ⟨h1, h2, h3⟩ := hB hlt
          refine ⟨h1, ?_, List.mem_append_right _ h3⟩
          rw [List.map_append, List.count_append, List.count_eq_zero_of_not_mem hnf1,
            Nat.zero_add]
          exact h2
    | add task =>
      simp only [step, Option.map_eq_some', Prod.mk.injEq] at hs
      obtain ⟨w, hw, rfl, rfl⟩ := hs
      obtain ⟨hfresh, hfr2⟩ := hfr
      have hcp := (addTask_WF tw w task hwf hw).2.2
      have hp := addTask_ptrs tw w task hw
      have hndw : (pendingPtrs w).Nodup := by
        rw [hp.nodup_iff, List.nodup_append]
        refine ⟨hnd, List.nodup_singleton _, ?_⟩
        intro a ha hb
        rw [List.mem_singleton] at hb
        exact hfresh (hb ▸ hused a ha)
      have husedw : ∀ a ∈ pendingPtrs w, a ∈ task.ptr :: used := by
        intro a ha
        have := hp.mem_iff.mp ha
        simp only [List.mem_append, List.mem_singleton] at this
        rcases this with h1 | h1
        · exact List.mem_cons_of_mem _ (hused a h1)
        · exact h1 ▸ List.mem_cons_self _ _
      have hres2 := addTask_resident tw w task hw p t hres
      have hnc2 : ∀ k, t.key = some k → Event.remove (some k) ∉ es := fun k hk hm =>
        hnc k hk (List.mem_cons_of_mem _ hm)
      have hv : visits tw.slotNum (p : Int) tw.currentPos (Event.add task :: es) =
          visits w.slotNum (p : Int) w.currentPos es := by
        rw [hn2, hcp]
        rfl
      rw [hv]
      simpa using ih w tw1 f2 (task.ptr :: used) p t hwf2 hndw husedw hfr2 hres2 hc hnc2 hr
    | remove key =>
      simp only [step, Option.map_eq_some', Prod.mk.injEq] at hs
      obtain ⟨w, hw, rfl, rfl⟩ := hs
      have hcp := (removeTask_WF tw w key hwf hw).2.2
      have hsub := removeTask_ptrs tw w key hw
      have hndw : (pendingPtrs w).Nodup := hnd.sublist hsub
      have husedw : ∀ a ∈ pendingPtrs w, a ∈ used := fun a ha => hused a (hsub.subset ha)
      have hres2 : resident w p t := by
        by_cases hk : t.key = key
        · cases hkey : key with
          | none =>
            have habs : tw.timer key = none := by
              rw [hkey]
              exact hwf.2.2.2.2.2
            rw [removeTask_absent tw key habs, Option.some.injEq] at hw
            subst hw
            exact hres
          | some k =>
            exact absurd (List.mem_cons_self _ _) (hkey ▸ hnc k (hk.trans hkey))
        · exact removeTask_resident tw w key hw p t hk hres
      have hnc2 : ∀ k, t.key = some k → Event.remove (some k) ∉ es := fun k hk hm =>
        hnc k hk (List.mem_cons_of_mem _ hm)
      have hv : visits tw.slotNum (p : Int) tw.currentPos (Event.remove key :: es) =
          visits w.slotNum (p : Int) w.currentPos es := by
        rw [hn2, hcp]
        rfl
      rw [hv]
      simpa using ih w tw1 f2 used p t hwf2 hndw husedw hfr hres2 hc hnc2 hr

theorem freshPtrs_ticks {κ δ : Type} (n : Nat) (used : List Nat) :
    FreshPtrs used (List.replicate n (Event.tick : Event κ δ)) := by
  induction n with
  | zero => trivial
  | succ n ih => exact ih

theorem remove_not_mem_ticks {κ δ : Type} (n : Nat) (key : Option κ) :
    (Event.remove key : Event κ δ) ∉ List.replicate n Event.tick := by
  intro h
  have := List.eq_of_mem_replicate h
  cases this

theorem addTask_scenarioB :
    addTask scenarioWheel ⟨1, 25 * Second, 0, some 1, 0⟩ = some scenarioWheelB := by
  have hg : getPositionAndCircle scenarioWheel (25 * Second) = some (4, 2) := by decide
  unfold addTask
  simp only [hg]
  rfl

theorem scenarioWheelB_WF : WF scenarioWheelB := by
  refine ⟨by decide, by decide, by decide, by decide, ?_, rfl⟩
  intro k p h
  simp only [scenarioWheelB, mapSet] at h
  by_cases hk : k = some 1
  · simp only [hk, if_true, Option.some.injEq] at h
    subst h
    decide
  · simp [hk] at h

theorem run_cursor {κ δ ι : Type} [DecidableEq κ] (es : List (Event κ δ)) :
    ∀ (tw tw1 : TimeWheel κ δ ι) (fired : List (Task κ δ)), WF tw →
      run tw es = some (tw1, fired) →
      tw1.currentPos = (tw.currentPos + (ticksIn es : Int)) % tw.slotNum := by
  induction es with
  | nil =>
    intro tw tw1 fired hwf h
    simp only [run, Option.some.injEq, Prod.mk.injEq] at h
    obtain ⟨rfl, _⟩ := h
    obtain ⟨_, _, hc0, hcN, _, _⟩ := hwf
    simp only [ticksIn, Nat.cast_zero, add_zero]
    exact (Int.emod_eq_of_lt hc0 hcN).symm
  | cons e es ih =>
    intro tw tw1 fired hwf h
    obtain ⟨tw2, f1, f2, hs, hr, _⟩ := run_cons_inv tw tw1 e es fired h
    obtain ⟨hwf2, hn2⟩ := step_WF tw tw2 e f1 hwf hs
    have h1 := ih tw2 tw1 f2 hwf2 hr
    rw [hn2] at h1
    cases e with
    | tick =>
      have hc := (tickHandler_WF tw tw2 f1 hwf hs).2.2
      rw [h1, hc, Int.emod_add_emod]
      simp only [ticksIn, Nat.cast_add, Nat.cast_one]
      congr 1
      ring
    | add task =>
      simp only [step, Option.map_eq_some', Prod.mk.injEq] at hs
      obtain ⟨w, hw, rfl, _⟩ := hs
      rw [h1, (addTask_WF tw w task hwf hw).2.2]
      rfl
    | remove key =>
      simp only [step, Option.map_eq_some', Prod.mk.injEq] at hs
      obtain ⟨w, hw, rfl, _⟩ := hs
      rw [h1, (removeTask_WF tw w key hwf hw).2.2]
      rfl

/-! ### Drains of a slot and ticks -/

theorem visits_le_iff {κ δ : Type} (N p : Int) (hN : 0 < N) (hp0 : 0 ≤ p) (hpN : p < N)
    (es : List (Event κ δ)) :
    ∀ (c : Int) (r : Nat), 0 ≤ c → c < N →
      (visits N p c es ≤ r ↔ (ticksIn es : Int) ≤ (p - c) % N + r * N) := by
  induction es with
  | nil =>
    intro c r h0 h1
    simp only [visits, ticksIn, Nat.zero_le, Nat.cast_zero, true_iff]
    have := Int.emod_nonneg (p - c) (by omega : N ≠ 0)
    have : 0 ≤ (r : Int) * N := Int.mul_nonneg (by omega) (by omega)
    omega
  | cons e es ih =>
    intro c r h0 h1
    cases e with
    | tick =>
      have hc0 : 0 ≤ (c + 1) % N := Int.emod_nonneg _ (by omega)
      have hc1 : (c + 1) % N < N := Int.emod_lt_of_pos _ hN
      simp only [visits, ticksIn, Nat.cast_add, Nat.cast_one]
      by_cases hcp : c = p
      · subst hcp
        simp only [if_true, sub_self, Int.zero_emod, zero_add]
        have hm2 : (c - (c + 1) % N) % N = N - 1 := by
          rcases emod_small N (c - (c + 1) % N) hN (by omega) (by omega) with ⟨hb, hm⟩ | ⟨hb, hm⟩ <;>
          rcases succ_emod N c h0 h1 with ⟨hs, hs2⟩ | ⟨hs, hs2⟩ <;> omega
        cases r with
        | zero =>
          simp only [Nat.cast_zero, zero_mul]
          constructor <;> intro h <;> omega
        | succ r1 =>
          have hih := ih ((c + 1) % N) r1 hc0 hc1
          have e : ((r1 + 1 : Nat) : Int) * N = (r1 : Int) * N + N := by push_cast; ring
          rw [e]
          rw [hm2] at hih
          constructor
          · intro h
            have := hih.mp (by omega)
            omega
          · intro h
            have := hih.mpr (by omega)
            omega
      · simp only [hcp, if_false, zero_add]
        have hih := ih ((c + 1) % N) r hc0 hc1
        have hm2 : (p - (c + 1) % N) % N = (p - c) % N - 1 := by
          rcases emod_small N (p - c) hN (by omega) (by omega) with ⟨ha, hm⟩ | ⟨ha, hm⟩ <;>
          rcases emod_small N (p - (c + 1) % N) hN (by omega) (by omega) with ⟨hb, hm3⟩ | ⟨hb, hm3⟩ <;>
          rcases succ_emod N c h0 h1 with ⟨hs, hs2⟩ | ⟨hs, hs2⟩ <;> omega
        rw [hm2] at hih
        constructor
        · intro h
          have := hih.mp h
          omega
        · intro h
          exact hih.mpr (by omega)
    | add task =>
      simp only [visits, ticksIn]
      exact ih c r h0 h1
    | remove key =>
      simp only [visits, ticksIn]
      exact ih c r h0 h1

theorem placement_distance (c s N : Int) (hN : 0 < N) (hs : 0 ≤ s) :
    ((c + s) % N - c) % N + (s / N).toNat * N = s := by
  have h1 : ((c + s) % N - c) % N = s % N := by
    rw [Int.sub_emod, Int.emod_emod, ← Int.sub_emod]
    congr 1
    ring
  have h2 : ((s / N).toNat : Int) = s / N := Int.toNat_of_nonneg (Int.ediv_nonneg hs hN.le)
  rw [h1, h2, mul_comm]
  exact Int.emod_add_ediv s N

theorem circle_eq_of_not_dvd (D I N : Int) (_hD : 1 ≤ D) (hI : 1 ≤ I) (hN : 0 < N)
    (h : ¬ (I * N ∣ D)) : D / I / N = (D - 1) / I / N := by
  rw [ediv_ediv_pos D I N (by omega) hN, ediv_ediv_pos (D - 1) I N (by omega) hN]
  have hM : 0 < I * N := Int.mul_pos (by omega) hN
  have hr : D % (I * N) ≠ 0 := fun h0 => h (Int.dvd_of_emod_eq_zero h0)
  have hr0 := Int.emod_nonneg D (by omega : I * N ≠ 0)
  have hr1 := Int.emod_lt_of_pos D hM
  have hd := Int.emod_add_ediv D (I * N)
  exact ((@Int.ediv_emod_unique (D - 1) (I * N) (D % (I * N) - 1) (D / (I * N)) hM).mpr
    ⟨by omega, by omega, by omega⟩).1.symm

theorem ceil_bounds (D I : Int) (hI : 1 ≤ I) :
    D ≤ ((D - 1) / I + 1) * I ∧ ((D - 1) / I + 1) * I < D + I := by
  have h1 := Int.emod_add_ediv (D - 1) I
  have h2 := Int.emod_nonneg (D - 1) (by omega : I ≠ 0)
  have h3 := Int.emod_lt_of_pos (D - 1) (by omega : 0 < I)
  have e : ((D - 1) / I + 1) * I = I * ((D - 1) / I) + I := by ring
  rw [e]
  constructor <;> omega

/-- The placement formula from one second on: for every wheel with N slots and cursor c in
[0,N) whose interval converts to at least one whole second, and for every delay that converts to
at least one whole second, getPositionAndCircle returns
position = (c + floor((delaySeconds - 1) / intervalSeconds)) mod N and
revolution = floor(delaySeconds / intervalSeconds / N), with the mathematical floor and mod,
where delaySeconds and intervalSeconds are the values `int(d.Seconds())` of the code. -/
theorem getPositionAndCircle_spec {κ δ ι : Type} (tw : TimeWheel κ δ ι) (d : Int)
    (hd : 1 ≤ seconds d) (hi : 1 ≤ seconds tw.interval) (hN : 0 < tw.slotNum)
    (hc : 0 ≤ tw.currentPos) :
    getPositionAndCircle tw d =
      some (specPosition tw.currentPos (seconds d) (seconds tw.interval) tw.slotNum,
        specRevolution (seconds d) (seconds tw.interval) tw.slotNum) := by
  rw [getPositionAndCircle_eq tw d hd hi hN hc, specPosition_eq _ _ _ _ (by omega),
    specRevolution_eq _ _ _ (by omega) hN]

/-- The placement formula on the scenario of the specification: interval 1s, N = 10, cursor 0,
delay 25s is placed at position 4 with revolution 2 and delay 5s at position 4 with
revolution 0. -/
theorem getPositionAndCircle_spec_witness :
    New Second 10 (some ()) = some scenarioWheel ∧
    getPositionAndCircle scenarioWheel (25 * Second) =
      some (specPosition 0 25 1 10, specRevolution 25 1 10) ∧
    getPositionAndCircle scenarioWheel (25 * Second) = some (4, 2) ∧
    getPositionAndCircle scenarioWheel (5 * Second) = some (4, 0) :=
  ⟨rfl, getPositionAndCircle_spec scenarioWheel (25 * Second) (by decide) (by decide)
    (by decide) (by decide), by decide, by decide⟩

/-- Evaluation for C1: interval 1s, N = 10, cursor 0 and the positive delay 500ms.  The code
computes position -1 (truncating division and remainder), the formula of the claim with the
mathematical floor and mod gives 9. -/
theorem getPositionAndCircle_subsecond_position :
    New Second 10 (some ()) = some scenarioWheel ∧
    (0 : Int) < 500000000 ∧
    getPositionAndCircle scenarioWheel 500000000 = some (-1, 0) ∧
    specPosition scenarioWheel.currentPos (seconds 500000000) (seconds scenarioWheel.interval)
      scenarioWheel.slotNum = 9 ∧
    getPositionAndCircle scenarioWheel 500000000 ≠
      some (specPosition scenarioWheel.currentPos (seconds 500000000)
        (seconds scenarioWheel.interval) scenarioWheel.slotNum,
        specRevolution (seconds 500000000) (seconds scenarioWheel.interval)
          scenarioWheel.slotNum) := by
  have h9 : specPosition scenarioWheel.currentPos (seconds 500000000)
      (seconds scenarioWheel.interval) scenarioWheel.slotNum = 9 := by
    rw [specPosition_eq _ _ _ _ (by decide)]
    decide
  refine ⟨rfl, by decide, by decide, h9, ?_⟩
  rw [h9]
  have h : getPositionAndCircle scenarioWheel 500000000 = some (-1, 0) := by decide
  rw [h]
  intro hh
  have := congrArg (fun o => o.map Prod.fst) hh
  simp at this

/-- Claim C2, amended: in a wheel with N slots whose interval converts to I >= 1 whole seconds,
at any cursor, a task whose delay converts to D >= 1 whole seconds (I and D are the values
`int(d.Seconds())` that getPositionAndCircle computes) with D not a multiple of I * N is
admitted by addTask and, unless cancelled, is fired by the k-th tick processed after its
admission and by no earlier tick, where k = ceil(D / I), so that D <= k * I < D + I.
Task identities are distinct and admitted tasks are fresh allocations. -/
theorem resolution_bound {κ δ ι : Type} [DecidableEq κ] (tw : TimeWheel κ δ ι) (t : Task κ δ)
    (hwf : WF tw) (hnd : (pendingPtrs tw).Nodup) (hnew : t.ptr ∉ pendingPtrs tw)
    (hI : 1 ≤ seconds tw.interval) (hD : 1 ≤ seconds t.delay)
    (hmult : ¬ (seconds tw.interval * tw.slotNum ∣ seconds t.delay)) :
    seconds t.delay ≤ dueTick t.delay tw.interval * seconds tw.interval ∧
    dueTick t.delay tw.interval * seconds tw.interval < seconds t.delay + seconds tw.interval ∧
    ∃ tw1, addTask tw t = some tw1 ∧
      ∀ (es : List (Event κ δ)) (tw2 : TimeWheel κ δ ι) (fired : List (Task κ δ)),
        FreshPtrs (t.ptr :: pendingPtrs tw) es →
        (∀ k, t.key = some k → Event.remove (some k) ∉ es) →
        run tw1 es = some (tw2, fired) →
        ((ticksIn es : Int) < dueTick t.delay tw.interval →
          t.ptr ∈ pendingPtrs tw2 ∧ t.ptr ∉ fired.map Task.ptr) ∧
        (dueTick t.delay tw.interval ≤ (ticksIn es : Int) →
          t.ptr ∉ pendingPtrs tw2 ∧ (fired.map Task.ptr).count t.ptr = 1 ∧
            ∃ x ∈ fired, x.ptr = t.ptr ∧ x.data = t.data) := by
  obtain ⟨hb1, hb2⟩ := ceil_bounds (seconds t.delay) (seconds tw.interval) hI
  refine ⟨hb1, hb2, ?_⟩
  obtain ⟨tw1, hadd⟩ := addTask_some tw t hwf hD hI
  refine ⟨tw1, hadd, ?_⟩
  intro es tw2 fired hfresh hnc hrun
  obtain ⟨hwf1, hn1, hc1⟩ := addTask_WF tw tw1 t hwf hadd
  obtain ⟨p, c, hg, hp0, hres, _, _⟩ := addTask_placed tw tw1 t hadd
  obtain ⟨hN, hlen, hc0, hcN, _, _⟩ := hwf
  rw [getPositionAndCircle_eq tw t.delay hD hI hN hc0, Option.some.injEq, Prod.mk.injEq] at hg
  obtain ⟨hp, hc⟩ := hg
  have hs0 : 0 ≤ (seconds t.delay - 1) / seconds tw.interval :=
    Int.ediv_nonneg (by omega) (by omega)
  have hcc : c = (seconds t.delay - 1) / seconds tw.interval / tw.slotNum := by
    rw [← hc]
    exact circle_eq_of_not_dvd _ _ _ hD hI hN hmult
  have hcnn : 0 ≤ c := by
    rw [hcc]
    exact Int.ediv_nonneg hs0 hN.le
  have hpN : p < tw.slotNum := by
    rw [← hp]
    exact Int.emod_lt_of_pos _ hN
  have hperm := addTask_ptrs tw tw1 t hadd
  have hnd1 : (pendingPtrs tw1).Nodup := by
    rw [hperm.nodup_iff, List.nodup_append]
    refine ⟨hnd, List.nodup_singleton _, ?_⟩
    intro a ha hb
    rw [List.mem_singleton] at hb
    exact hnew (hb ▸ ha)
  have hused : ∀ a ∈ pendingPtrs tw1, a ∈ t.ptr :: pendingPtrs tw := by
    intro a ha
    have := hperm.mem_iff.mp ha
    simp only [List.mem_append, List.mem_singleton] at this
    rcases this with h1 | h1
    · exact List.mem_cons_of_mem _ h1
    · exact h1 ▸ List.mem_cons_self _ _
  obtain ⟨hA, hB⟩ := track_task es tw1 tw2 fired (t.ptr :: pendingPtrs tw) p.toNat
    { t with circle := c } hwf1 hnd1 hused hfresh hres hcnn hnc hrun
  have hpcast : ((p.toNat : Nat) : Int) = p := Int.toNat_of_nonneg hp0
  rw [hpcast, hn1, hc1] at hA hB
  have hiff := visits_le_iff tw.slotNum p hN hp0 hpN es tw.currentPos c.toNat hc0 hcN
  have hdist := placement_distance tw.currentPos ((seconds t.delay - 1) / seconds tw.interval)
    tw.slotNum hN hs0
  rw [hp, ← hcc] at hdist
  rw [hdist] at hiff
  have hct : ((c.toNat : Nat) : Int) = c := Int.toNat_of_nonneg hcnn
  unfold dueTick
  constructor
  · intro hlt
    have hv : visits tw.slotNum p tw.currentPos es ≤ c.toNat := hiff.mpr (by omega)
    obtain ⟨h1, h2⟩ := hA (by simp only; omega)
    have := resident_ptr tw2 _ _ h1
    exact ⟨this, h2⟩
  · intro hle
    have hv : ¬ visits tw.slotNum p tw.currentPos es ≤ c.toNat := fun h => by
      have := hiff.mp h
      omega
    obtain ⟨h1, h2, h3⟩ := hB (by simp only; omega)
    exact ⟨h1, h2, _, h3, rfl, rfl⟩

/-- Witness for C2: the fresh wheel of the scenario (interval 1s, N = 10) and the delay 25s,
due on tick 25. -/
theorem resolution_bound_witness :
    dueTick (25 * Second) Second = 25 ∧
    ∃ tw1, addTask scenarioWheel ⟨1, 25 * Second, 0, some 1, 0⟩ = some tw1 ∧
      ∀ (es : List (Event Nat Nat)) (tw2 : TimeWheel Nat Nat Unit) (fired : List (Task Nat Nat)),
        FreshPtrs [1] es →
        (∀ k, some 1 = some k → Event.remove (some k) ∉ es) →
        run tw1 es = some (tw2, fired) →
        ((ticksIn es : Int) < dueTick (25 * Second) Second →
          1 ∈ pendingPtrs tw2 ∧ 1 ∉ fired.map Task.ptr) ∧
        (dueTick (25 * Second) Second ≤ (ticksIn es : Int) →
          1 ∉ pendingPtrs tw2 ∧ (fired.map Task.ptr).count 1 = 1 ∧
            ∃ x ∈ fired, x.ptr = 1 ∧ x.data = 0) :=
  ⟨by decide,
    (resolution_bound scenarioWheel ⟨1, 25 * Second, 0, some 1, 0⟩
      (New_WF Second 10 (some ()) scenarioWheel rfl) (by decide) (by decide) (by decide)
      (by decide) (by decide)).2.2⟩

theorem run_fired {κ δ ι : Type} [DecidableEq κ] (tw : TimeWheel κ δ ι) (es : List (Event κ δ))
    (f : List (Task κ δ)) (h : (run tw es).map Prod.snd = some f) :
    ∃ tw1, run tw es = some (tw1, f) := by
  cases hr : run tw es with
  | none => simp [hr] at h
  | some r =>
    obtain ⟨w, g⟩ := r
    simp only [hr, Option.map_some', Option.some.injEq] at h
    subst h
    exact ⟨w, rfl⟩

/-- Counterexample for C2 as stated: interval 1s, N = 10, cursor 0 and the delay 1.5s.  The
task is fired by the first tick after its admission, so k = 1 and k * I = 1s is less than the
delay. -/
theorem resolution_bound_counterexample :
    (0 : Int) < 1500000000 ∧
    (∃ tw, run scenarioWheel [Event.add ⟨1, 1500000000, 0, some 1, 7⟩, Event.tick] =
      some (tw, [⟨1, 1500000000, 0, some 1, 7⟩])) ∧
    ¬ ((1500000000 : Int) ≤ 1 * scenarioWheel.interval) :=
  ⟨by decide, run_fired _ _ _ (by decide), by decide⟩

/-- The delay 10s in the wheel of the scenario (interval 1s, N = 10, cursor 0), a multiple of
I * N: the task is placed in slot 9 with revolution count 1, is not fired by the first 19
ticks, and is fired by tick 20. -/
theorem revolution_multiple_fires_late :
    getPositionAndCircle scenarioWheel (10 * Second) = some (9, 1) ∧
    (∃ tw, run scenarioWheel
      (Event.add ⟨1, 10 * Second, 0, some 1, 7⟩ :: List.replicate 19 Event.tick) =
        some (tw, [])) ∧
    (∃ tw, run scenarioWheel
      (Event.add ⟨1, 10 * Second, 0, some 1, 7⟩ :: List.replicate 20 Event.tick) =
        some (tw, [⟨1, 10 * Second, 0, some 1, 7⟩])) :=
  ⟨by decide, run_fired _ _ _ (by decide), run_fired _ _ _ (by decide)⟩

/-- Claim C3: a task resident in the bucket of slot p with revolution count r >= 0 and not
cancelled (no removeTask for its key) is, after any sequence of events, still resident in that
bucket with count r - v and has not been fired as long as the number v of ticks that drained
slot p is at most r; as soon as v exceeds r, that is from the (r+1)-th drain of its slot on, it
is gone from every bucket and its callback has been started exactly once (with its payload).
Task identities are distinct and admitted tasks are fresh allocations. -/
theorem fires_on_visit {κ δ ι : Type} [DecidableEq κ] (tw tw1 : TimeWheel κ δ ι) (p : Nat)
    (t : Task κ δ) (es : List (Event κ δ)) (fired : List (Task κ δ))
    (hwf : WF tw) (hnd : (pendingPtrs tw).Nodup) (hres : resident tw p t)
    (hr : 0 ≤ t.circle) (hfresh : FreshPtrs (pendingPtrs tw) es)
    (hnc : ∀ k, t.key = some k → Event.remove (some k) ∉ es)
    (hrun : run tw es = some (tw1, fired)) :
    ((visits tw.slotNum (p : Int) tw.currentPos es : Int) ≤ t.circle →
      resident tw1 p
          { t with circle := t.circle - (visits tw.slotNum (p : Int) tw.currentPos es : Int) } ∧
        t.ptr ∉ fired.map Task.ptr) ∧
    (t.circle < (visits tw.slotNum (p : Int) tw.currentPos es : Int) →
      t.ptr ∉ pendingPtrs tw1 ∧ (fired.map Task.ptr).count t.ptr = 1 ∧
        { t with circle := 0 } ∈ fired) :=
  track_task es tw tw1 fired (pendingPtrs tw) p t hwf hnd (fun _ h => h) hfresh hres hr hnc hrun

/-- Witness for C3 (the scenario of the specification): task B, admitted at cursor 0 with delay
25s, sits in slot 4 with count 2.  After 24 ticks slot 4 was drained twice and B is still
pending, unfired; after 25 ticks slot 4 was drained three times and B was fired once. -/
theorem fires_on_visit_witness :
    (∃ tw1 fired, run scenarioWheelB (List.replicate 24 Event.tick) = some (tw1, fired) ∧
      visits 10 4 0 (List.replicate 24 (Event.tick : Event Nat Nat)) = 2 ∧
      resident tw1 4 ⟨1, 25 * Second, 0, some 1, 0⟩ ∧ 1 ∉ fired.map Task.ptr) ∧
    (∃ tw1 fired, run scenarioWheelB (List.replicate 25 Event.tick) = some (tw1, fired) ∧
      visits 10 4 0 (List.replicate 25 (Event.tick : Event Nat Nat)) = 3 ∧
      1 ∉ pendingPtrs tw1 ∧ (fired.map Task.ptr).count 1 = 1 ∧
      (⟨1, 25 * Second, 0, some 1, 0⟩ : Task Nat Nat) ∈ fired) := by
  have hres : resident scenarioWheelB 4 ⟨1, 25 * Second, 2, some 1, 0⟩ :=
    ⟨[⟨1, 25 * Second, 2, some 1, 0⟩], rfl, List.mem_singleton.mpr rfl⟩
  constructor
  · obtain ⟨tw1, fired, h⟩ := run_isSome scenarioWheelB (List.replicate 24 Event.tick)
      (by decide)
    have hv : visits 10 4 0 (List.replicate 24 (Event.tick : Event Nat Nat)) = 2 := by decide
    have := (fires_on_visit scenarioWheelB tw1 4 ⟨1, 25 * Second, 2, some 1, 0⟩
      (List.replicate 24 Event.tick) fired scenarioWheelB_WF (by decide) hres (by decide)
      (freshPtrs_ticks 24 _) (fun k _ => remove_not_mem_ticks 24 (some k)) h).1 (by decide)
    exact ⟨tw1, fired, h, hv, this⟩
  · obtain ⟨tw1, fired, h⟩ := run_isSome scenarioWheelB (List.replicate 25 Event.tick)
      (by decide)
    have hv : visits 10 4 0 (List.replicate 25 (Event.tick : Event Nat Nat)) = 3 := by decide
    have := (fires_on_visit scenarioWheelB tw1 4 ⟨1, 25 * Second, 2, some 1, 0⟩
      (List.replicate 25 Event.tick) fired scenarioWheelB_WF (by decide) hres (by decide)
      (freshPtrs_ticks 25 _) (fun k _ => remove_not_mem_ticks 25 (some k)) h).2 (by decide)
    exact ⟨tw1, fired, h, hv, this⟩

/-- For every wheel state and every key that the index can hold (nil or of hashable dynamic
type) and that is absent from it, removeTask returns normally and leaves the whole wheel state
(buckets, index, cursor) unchanged; the driver iteration that handles the request fires
nothing. -/
theorem removeTask_unknown_key {κ δ ι : Type} [DecidableEq κ] (tw : TimeWheel κ δ ι)
    (key : Option κ) (h : tw.timer key = none) :
    removeTask tw key = some tw ∧ step tw (Event.remove key) = some (tw, []) := by
  have h1 := removeTask_absent tw key h
  exact ⟨h1, by simp [step, h1]⟩

/-- Cancelling the hashable key 7 on the fresh wheel of the scenario changes nothing. -/
theorem removeTask_unknown_key_witness :
    scenarioWheel.timer (some 7) = none ∧
    removeTask scenarioWheel (some 7) = some scenarioWheel ∧
    step scenarioWheel (Event.remove (some 7)) = some (scenarioWheel, []) :=
  ⟨rfl, removeTask_unknown_key scenarioWheel (some 7) rfl⟩

/-- Evaluation for C6: the fresh wheel of the scenario has an empty key index, so every key is
absent from it.  removeTask with a key of unhashable dynamic type (the request of
`RemoveTask([]int{1})`) does not return: the map read `tw.timer[key]` panics.  With the absent
hashable key 7 it returns the wheel unchanged. -/
theorem removeTask_unhashable_key :
    New Second 10 (some ()) = some scenarioWheel ∧
    (∀ k : Option Nat, scenarioWheel.timer k = none) ∧
    removeTaskAny scenarioWheel AnyKey.unhashable = none ∧
    removeTaskAny scenarioWheel (AnyKey.hashable (some 7)) = some scenarioWheel :=
  ⟨rfl, fun _ => rfl, rfl, rfl⟩

/-- Claim C7: AddTask with delay <= 0 hands no request to the driver loop, so the loop has
nothing to process and the wheel state is unchanged; with delay > 0 it hands over exactly one
request, carrying that delay, key and payload. -/
theorem AddTask_requests {κ δ ι : Type} [DecidableEq κ] (tw : TimeWheel κ δ ι) (ptr : Nat)
    (delay : Int) (key : Option κ) (data : δ) :
    (delay ≤ 0 → (AddTask ptr delay key data : List (Signal κ δ)) = [] ∧
      start tw (AddTask ptr delay key data) = some (tw, [])) ∧
    (0 < delay → ∃ task : Task κ δ,
      AddTask ptr delay key data = [Signal.event (Event.add task)] ∧
      task.delay = delay ∧ task.key = key ∧ task.data = data ∧ task.ptr = ptr) := by
  constructor
  · intro h
    simp [AddTask, h, start]
  · intro h
    have h2 : ¬ delay ≤ 0 := by omega
    exact ⟨⟨ptr, delay, 0, key, data⟩, by simp only [AddTask, h2, if_false], rfl, rfl, rfl, rfl⟩

/-- Witness for C7: a zero delay sends nothing and leaves the wheel of the scenario unchanged; a
delay of 5s sends one request with that delay, key and payload. -/
theorem AddTask_requests_witness :
    ((AddTask 1 0 (some 1) 7 : List (Signal Nat Nat)) = [] ∧
      start scenarioWheel (AddTask 1 0 (some 1) 7) = some (scenarioWheel, [])) ∧
    (∃ task : Task Nat Nat,
      AddTask 1 (5 * Second) (some 1) 7 = [Signal.event (Event.add task)] ∧
      task.delay = 5 * Second ∧ task.key = some 1 ∧ task.data = 7 ∧ task.ptr = 1) :=
  ⟨(AddTask_requests scenarioWheel 1 0 (some 1) 7).1 (by decide),
    (AddTask_requests scenarioWheel 1 (5 * Second) (some 1) 7).2 (by decide)⟩

/-- Claim C8: New returns the nil wheel if and only if interval <= 0 or slotNum <= 0 or the
callback is nil; otherwise it returns a wheel with exactly slotNum buckets, all of them empty,
an empty key index, cursor 0 and the given interval, slot count and callback. -/
theorem New_contract {κ δ ι : Type} (interval slotNum : Int) (job : Option ι) :
    ((New interval slotNum job : Option (TimeWheel κ δ ι)) = none ↔
      (interval ≤ 0 ∨ slotNum ≤ 0 ∨ job = none)) ∧
    (¬ (interval ≤ 0 ∨ slotNum ≤ 0 ∨ job = none) →
      ∃ tw : TimeWheel κ δ ι, New interval slotNum job = some tw ∧
        (tw.slots.length : Int) = slotNum ∧ (∀ l ∈ tw.slots, l = []) ∧
        (∀ k, tw.timer k = none) ∧ tw.currentPos = 0 ∧ tw.interval = interval ∧
        tw.slotNum = slotNum ∧ job = some tw.job) := by
  have key : (New interval slotNum job : Option (TimeWheel κ δ ι)) = none ↔
      (interval ≤ 0 ∨ slotNum ≤ 0 ∨ job = none) := by
    unfold New
    cases job with
    | none => simp
    | some j =>
      by_cases hb : interval ≤ 0 ∨ slotNum ≤ 0
      · simp only [hb, if_true, true_iff]
        rcases hb with hb | hb
        · exact Or.inl hb
        · exact Or.inr (Or.inl hb)
      · simp only [hb, if_false]
        constructor
        · intro h
          simp at h
        · intro h
          rcases h with h | h | h
          · exact absurd (Or.inl h) hb
          · exact absurd (Or.inr h) hb
          · simp at h
  refine ⟨key, ?_⟩
  intro hgood
  cases hnew : (New interval slotNum job : Option (TimeWheel κ δ ι)) with
  | none => exact absurd (key.mp hnew) hgood
  | some tw =>
    obtain ⟨_, hN, hj, hi, hs, hn, hc, ht⟩ := New_inv interval slotNum job tw hnew
    refine ⟨tw, rfl, ?_, ?_, ?_, hc, hi, hn, hj⟩
    · rw [hs, initSlot_length]
      omega
    · intro l hl
      rw [hs] at hl
      exact initSlot_mem _ l hl
    · intro k
      rw [ht]

/-- Witness for C8: a zero interval gives the nil wheel; interval 1s with 10 slots and a callback
gives a wheel with 10 empty buckets, an empty index and cursor 0. -/
theorem New_contract_witness :
    (New 0 10 (some ()) : Option (TimeWheel Nat Nat Unit)) = none ∧
    ∃ tw : TimeWheel Nat Nat Unit, New Second 10 (some ()) = some tw ∧
      (tw.slots.length : Int) = 10 ∧ (∀ l ∈ tw.slots, l = []) ∧
      (∀ k, tw.timer k = none) ∧ tw.currentPos = 0 ∧ tw.interval = Second ∧
      tw.slotNum = 10 ∧ some () = some tw.job :=
  ⟨(New_contract 0 10 (some ())).1.mpr (Or.inl (by decide)),
    (New_contract Second 10 (some ())).2 (by decide)⟩

/-- Claim C10: in every state reachable from a freshly constructed wheel with N slots by a
sequence of addTask, removeTask and tick events the cursor lies in [0, N) and equals
n mod N, where n is the number of ticks of the sequence; a tick from that state returns and
moves the cursor from c to (c + 1) mod N; addTask and removeTask leave the cursor unchanged,
and removeTask always returns. -/
theorem cursor_invariant {κ δ ι : Type} [DecidableEq κ] (interval N : Int) (job : Option ι)
    (tw0 tw : TimeWheel κ δ ι) (es : List (Event κ δ)) (fired : List (Task κ δ))
    (h0 : New interval N job = some tw0) (hrun : run tw0 es = some (tw, fired)) :
    0 ≤ tw.currentPos ∧ tw.currentPos < N ∧ tw.currentPos = (ticksIn es : Int) % N ∧
    (∃ tw1 f, step tw Event.tick = some (tw1, f) ∧
      tw1.currentPos = (tw.currentPos + 1) % N) ∧
    (∀ task tw1 f, step tw (Event.add task) = some (tw1, f) →
      tw1.currentPos = tw.currentPos) ∧
    (∀ key, ∃ tw1, step tw (Event.remove key) = some (tw1, []) ∧
      tw1.currentPos = tw.currentPos) := by
  have hwf0 := New_WF interval N job tw0 h0
  obtain ⟨_, _, _, _, _, hn0, hc0, _⟩ := New_inv interval N job tw0 h0
  obtain ⟨hwf, hn⟩ := run_WF es tw0 tw fired hwf0 hrun
  have hcur := run_cursor es tw0 tw fired hwf0 hrun
  rw [hc0, hn0, zero_add] at hcur
  rw [hn0] at hn
  have hwf2 := hwf
  obtain ⟨_, _, hl, hu, _, _⟩ := hwf2
  refine ⟨hl, by omega, hcur, ?_, ?_, ?_⟩
  · obtain ⟨tw1, f, ht⟩ := tickHandler_some tw hwf
    refine ⟨tw1, f, ht, ?_⟩
    rw [(tickHandler_WF tw tw1 f hwf ht).2.2, hn]
  · intro task tw1 f hs
    simp only [step, Option.map_eq_some', Prod.mk.injEq] at hs
    obtain ⟨w, hw, rfl, _⟩ := hs
    exact (addTask_WF tw w task hwf hw).2.2
  · intro key
    obtain ⟨tw1, hr⟩ := removeTask_some tw key hwf
    exact ⟨tw1, by simp [step, hr], (removeTask_WF tw tw1 key hwf hr).2.2⟩

/-- Witness for C10: the wheel of the scenario after admitting a 25s task and three ticks has
its cursor at 3. -/
theorem cursor_invariant_witness :
    ∃ tw fired,
      run scenarioWheel
        [Event.add ⟨1, 25 * Second, 0, some 1, 0⟩, Event.tick, Event.tick, Event.tick] =
          some (tw, fired) ∧
      tw.currentPos = 3 ∧ 0 ≤ tw.currentPos ∧ tw.currentPos < 10 := by
  obtain ⟨tw, fired, h⟩ := run_isSome scenarioWheel
    [Event.add ⟨1, 25 * Second, 0, some 1, 0⟩, Event.tick, Event.tick, Event.tick] (by decide)
  have hc := cursor_invariant Second 10 (some ()) scenarioWheel tw _ fired rfl h
  exact ⟨tw, fired, h, hc.2.2.1.trans (by decide), hc.1, hc.2.1⟩


/-! ### The driver loop and the stop signal -/

theorem start_stop {κ δ ι : Type} [DecidableEq κ] (es : List (Event κ δ))
    (ss : List (Signal κ δ)) :
    ∀ tw : TimeWheel κ δ ι, start tw (es.map Signal.event ++ Signal.stop :: ss) = run tw es := by
  induction es with
  | nil => intro tw; rfl
  | cons e es ih =>
    intro tw
    show start tw (Signal.event e :: (es.map Signal.event ++ Signal.stop :: ss)) = run tw (e :: es)
    cases hs : step tw e with
    | none => simp only [start, run, hs]
    | some r =>
      obtain ⟨tw1, f1⟩ := r
      simp only [start, run, hs, ih tw1]

theorem start_events {κ δ ι : Type} [DecidableEq κ] (es : List (Event κ δ)) :
    ∀ tw : TimeWheel κ δ ι, start tw (es.map Signal.event) = run tw es := by
  induction es with
  | nil => intro tw; rfl
  | cons e es ih =>
    intro tw
    show start tw (Signal.event e :: es.map Signal.event) = run tw (e :: es)
    cases hs : step tw e with
    | none => simp only [start, run, hs]
    | some r =>
      obtain ⟨tw1, f1⟩ := r
      simp only [start, run, hs, ih tw1]

theorem fired_not_pending {κ δ ι : Type} [DecidableEq κ] (es : List (Event κ δ)) :
    ∀ (tw tw1 : TimeWheel κ δ ι) (fired : List (Task κ δ)) (used : List Nat),
      (pendingPtrs tw).Nodup → (∀ a ∈ pendingPtrs tw, a ∈ used) → FreshPtrs used es →
      run tw es = some (tw1, fired) → ∀ a ∈ fired.map Task.ptr, a ∉ pendingPtrs tw1 := by
  induction es with
  | nil =>
    intro tw tw1 fired used _ _ _ h
    simp only [run, Option.some.injEq, Prod.mk.injEq] at h
    obtain ⟨rfl, rfl⟩ := h
    intro a ha
    simp at ha
  | cons e es ih =>
    intro tw tw1 fired used hnd hused hfr h
    obtain ⟨tw2, f1, f2, hs, hr, hf⟩ := run_cons_inv tw tw1 e es fired h
    subst hf
    cases e with
    | tick =>
      have hp := tickHandler_ptrs tw tw2 f1 hs
      have hnd2 := (hp.nodup_iff).mp hnd
      obtain ⟨hndA, _, hdis⟩ := List.nodup_append.mp hnd2
      have hused2 : ∀ a ∈ pendingPtrs tw2, a ∈ used := fun a ha =>
        hused a (hp.mem_iff.mpr (List.mem_append_left _ ha))
      intro a ha
      rw [List.map_append, List.mem_append] at ha
      rcases ha with ha | ha
      · have hau : a ∈ used := hused a (hp.mem_iff.mpr (List.mem_append_right _ ha))
        exact (absent_stays es tw2 tw1 f2 used a hau (fun hm => hdis hm ha) hfr hr).1
      · exact ih tw2 tw1 f2 used hndA hused2 hfr hr a ha
    | add task =>
      simp only [step, Option.map_eq_some', Prod.mk.injEq] at hs
      obtain ⟨w, hw, rfl, rfl⟩ := hs
      obtain ⟨hfresh, hfr2⟩ := hfr
      have hp := addTask_ptrs tw w task hw
      have hndw : (pendingPtrs w).Nodup := by
        rw [hp.nodup_iff, List.nodup_append]
        refine ⟨hnd, List.nodup_singleton _, ?_⟩
        intro a ha hb
        rw [List.mem_singleton] at hb
        exact hfresh (hb ▸ hused a ha)
      have husedw : ∀ a ∈ pendingPtrs w, a ∈ task.ptr :: used := by
        intro a ha
        have := hp.mem_iff.mp ha
        simp only [List.mem_append, List.mem_singleton] at this
        rcases this with h1 | h1
        · exact List.mem_cons_of_mem _ (hused a h1)
        · exact h1 ▸ List.mem_cons_self _ _
      simpa using ih w tw1 f2 (task.ptr :: used) hndw husedw hfr2 hr
    | remove key =>
      simp only [step, Option.map_eq_some', Prod.mk.injEq] at hs
      obtain ⟨w, hw, rfl, rfl⟩ := hs
      have hsub := removeTask_ptrs tw w key hw
      simpa using ih w tw1 f2 used (hnd.sublist hsub) (fun a ha => hused a (hsub.subset ha)) hfr hr

/-- Claim C11: when the driver loop receives a Stop signal after a sequence of events, it returns
with the wheel and the fired tasks as they are after those events, whatever signals follow: no
later event is processed, so no tick after the Stop drains a bucket.  The tasks pending at the
Stop stay in their buckets and their callbacks were not started before the Stop either. -/
theorem stop_halts {κ δ ι : Type} [DecidableEq κ] (tw : TimeWheel κ δ ι)
    (es : List (Event κ δ)) (ss : List (Signal κ δ)) :
    start tw (es.map Signal.event ++ Stop ++ ss) = run tw es ∧
    ∀ tw1 fired, run tw es = some (tw1, fired) →
      start tw (es.map Signal.event ++ Stop ++ ss) = some (tw1, fired) ∧
      ((pendingPtrs tw).Nodup → FreshPtrs (pendingPtrs tw) es →
        ∀ t ∈ allTasks tw1,
          t.ptr ∉ fired.map Task.ptr) := by
  have h1 : start tw (es.map Signal.event ++ Stop ++ ss) = run tw es := by
    rw [List.append_assoc]
    exact start_stop es ss tw
  refine ⟨h1, ?_⟩
  intro tw1 fired hrun
  refine ⟨h1.trans hrun, ?_⟩
  intro hnd hfr t ht hm
  exact fired_not_pending es tw tw1 fired (pendingPtrs tw) hnd (fun _ h => h) hfr hrun t.ptr hm
    (List.mem_map.mpr ⟨t, ht, rfl⟩)

/-- Witness for C11: task B (25s) is admitted to the wheel of the scenario, the wheel is stopped,
and thirty ticks arrive after the Stop: nothing is fired and B is still in slot 4. -/
theorem stop_halts_witness :
    start scenarioWheel
      ([Event.add ⟨1, 25 * Second, 0, some 1, 0⟩].map Signal.event ++ Stop ++
        List.replicate 30 (Signal.event Event.tick)) = some (scenarioWheelB, []) ∧
    (∀ t ∈ allTasks scenarioWheelB, t.ptr ∉ ([] : List (Task Nat Nat)).map Task.ptr) ∧
    allTasks scenarioWheelB = [⟨1, 25 * Second, 2, some 1, 0⟩] := by
  have hrun : run scenarioWheel [Event.add ⟨1, 25 * Second, 0, some 1, 0⟩] =
      some (scenarioWheelB, []) := by
    simp only [run, step, addTask_scenarioB, Option.map_some', List.append_nil]
  have h := (stop_halts scenarioWheel [Event.add ⟨1, 25 * Second, 0, some 1, 0⟩]
    (List.replicate 30 (Signal.event Event.tick))).2 scenarioWheelB [] hrun
  exact ⟨h.1, h.2 (by decide) (by simp [FreshPtrs, pendingPtrs, allTasks, scenarioWheel, initSlot]),
    by decide⟩

/-! ### Soundness of the key index -/

/-- For every wheel state with N buckets and every task with a key that the index can hold (nil
or of hashable dynamic type) whose computed position p is in [0, N), addTask returns and appends
the task, its revolution count set to the computed revolution, at the end of bucket p after the
tasks already there; a non-nil key is mapped to p in the index, overwriting any prior entry, and
a nil key leaves the index unchanged; every other bucket, every other index entry, the cursor,
the interval and the slot count are unchanged. -/
theorem addTask_effect {κ δ ι : Type} [DecidableEq κ] (tw : TimeWheel κ δ ι) (task : Task κ δ)
    (p c : Int) (hlen : tw.slots.length = tw.slotNum.toNat)
    (hg : getPositionAndCircle tw task.delay = some (p, c)) (hp0 : 0 ≤ p)
    (hpN : p < tw.slotNum) :
    ∃ l tw1, tw.slots[p.toNat]? = some l ∧ addTask tw task = some tw1 ∧
      tw1.slots[p.toNat]? = some (l ++ [{ task with circle := c }]) ∧
      (∀ q, q ≠ p.toNat → tw1.slots[q]? = tw.slots[q]?) ∧
      tw1.slots.length = tw.slots.length ∧
      (task.key ≠ none → tw1.timer task.key = some p) ∧
      (task.key = none → tw1.timer = tw.timer) ∧
      (∀ x, x ≠ task.key → tw1.timer x = tw.timer x) ∧
      tw1.currentPos = tw.currentPos ∧ tw1.slotNum = tw.slotNum ∧
      tw1.interval = tw.interval := by
  have hlt : p.toNat < tw.slots.length := by omega
  have hneg : ¬ p < 0 := by omega
  have hadd : addTask tw task = some
      { tw with
        slots := tw.slots.set p.toNat (tw.slots[p.toNat] ++ [{ task with circle := c }])
        timer := if task.key ≠ none then mapSet tw.timer task.key p else tw.timer } := by
    unfold addTask
    simp only [hg, hneg, if_false, List.getElem?_eq_getElem hlt]
  refine ⟨tw.slots[p.toNat], _, List.getElem?_eq_getElem hlt, hadd, ?_, ?_, ?_, ?_, ?_, ?_,
    rfl, rfl, rfl⟩
  · exact List.getElem?_set_self hlt
  · intro q hq
    exact List.getElem?_set_ne (Ne.symm hq)
  · exact List.length_set _ _ _
  · intro hk
    simp [hk, mapSet]
  · intro hk
    simp [hk]
  · intro x hx
    by_cases hk : task.key = none
    · simp [hk]
    · simp [hk, mapSet, hx]

/-- Admitting task B (25s, hashable key 1) to the fresh wheel of the scenario appends it to the
empty bucket 4 with revolution count 2 and maps key 1 to slot 4. -/
theorem addTask_effect_witness :
    ∃ l tw1, scenarioWheel.slots[4]? = some l ∧
      addTask scenarioWheel ⟨1, 25 * Second, 0, some 1, 0⟩ = some tw1 ∧
      tw1.slots[4]? = some (l ++ [⟨1, 25 * Second, 2, some 1, 0⟩]) ∧
      (∀ q, q ≠ 4 → tw1.slots[q]? = scenarioWheel.slots[q]?) ∧
      tw1.slots.length = scenarioWheel.slots.length ∧
      ((some 1 : Option Nat) ≠ none → tw1.timer (some 1) = some 4) ∧
      ((some 1 : Option Nat) = none → tw1.timer = scenarioWheel.timer) ∧
      (∀ x, x ≠ some 1 → tw1.timer x = scenarioWheel.timer x) ∧
      tw1.currentPos = scenarioWheel.currentPos ∧ tw1.slotNum = scenarioWheel.slotNum ∧
      tw1.interval = scenarioWheel.interval :=
  addTask_effect scenarioWheel ⟨1, 25 * Second, 0, some 1, 0⟩ 4 2 (by decide) (by decide)
    (by decide) (by decide)

/-- Evaluation for C16: on the fresh wheel of the scenario the delay 5s has the computed
position 4, in [0, 10), and bucket 4 exists.  addTask of the task with delay 5s, payload 7 and a
key of unhashable dynamic type (the request of `AddTask(5*time.Second, []int{1}, 7)`) does not
return: after the append the map write `tw.timer[task.key] = pos` panics, and no state follows
in which the index maps the key to 4.  With the hashable key 1 the same admission returns and
the index maps 1 to 4. -/
theorem addTask_unhashable_key :
    New Second 10 (some ()) = some scenarioWheel ∧
    getPositionAndCircle scenarioWheel (5 * Second) = some (4, 0) ∧
    scenarioWheel.slots[4]? = some [] ∧
    addTaskAny scenarioWheel 1 (5 * Second) AnyKey.unhashable 7 = none ∧
    ∃ tw1, addTaskAny scenarioWheel 1 (5 * Second) (AnyKey.hashable (some 1)) 7 = some tw1 ∧
      tw1.timer (some 1) = some 4 := by
  refine ⟨rfl, by decide, rfl, rfl, ?_⟩
  have h : (addTask scenarioWheel ⟨1, 5 * Second, 0, some 1, 7⟩).map
      (fun tw => tw.timer (some 1)) = some (some 4) := by decide
  cases hr : addTask scenarioWheel ⟨1, 5 * Second, 0, some 1, 7⟩ with
  | none => simp [hr] at h
  | some tw1 =>
    simp only [hr, Option.map_some', Option.some.injEq] at h
    exact ⟨tw1, hr, h⟩

/-- Claim C14: in a wheel state where task T1 with key k is resident in bucket p1 while the index
maps k to a different slot p2 (a later admission with the same key was placed there),
removeTask(k) returns and leaves bucket p1 unchanged, so T1 stays pending; T1 is fired by the
tick that drains its slot when its revolution count is 0, and, over any later sequence of
events without a further removeTask(k), exactly once as soon as its slot has been drained more
often than its revolution count. -/
theorem ghost_task {κ δ ι : Type} [DecidableEq κ] (tw : TimeWheel κ δ ι) (T1 : Task κ δ)
    (k : κ) (p1 : Nat) (p2 : Int) (hwf : WF tw) (hres : resident tw p1 T1)
    (hk : T1.key = some k) (hidx : tw.timer (some k) = some p2) (hne : p2 ≠ (p1 : Int)) :
    ∃ tw1, removeTask tw (some k) = some tw1 ∧ tw1.slots[p1]? = tw.slots[p1]? ∧
      resident tw1 p1 T1 ∧ tw1.currentPos = tw.currentPos ∧
      (tw.currentPos = (p1 : Int) → ¬ 0 < T1.circle →
        ∃ tw2 fired, tickHandler tw1 = some (tw2, fired) ∧ T1 ∈ fired) ∧
      (0 ≤ T1.circle → (pendingPtrs tw).Nodup →
        ∀ (es : List (Event κ δ)) (tw2 : TimeWheel κ δ ι) (fired : List (Task κ δ)),
          FreshPtrs (pendingPtrs tw) es → Event.remove (some k) ∉ es →
          run tw1 es = some (tw2, fired) →
          T1.circle < (visits tw.slotNum (p1 : Int) tw.currentPos es : Int) →
          (fired.map Task.ptr).count T1.ptr = 1 ∧ { T1 with circle := 0 } ∈ fired) := by
  obtain ⟨tw1, hrem⟩ := removeTask_some tw (some k) hwf
  obtain ⟨l, hp0, _, _, _, _, _, hs, _⟩ := removeTask_inv tw tw1 (some k) p2 hidx hrem
  obtain ⟨hwf1, hn1, hc1⟩ := removeTask_WF tw tw1 (some k) hwf hrem
  have hpne : p2.toNat ≠ p1 := by omega
  have hslot : tw1.slots[p1]? = tw.slots[p1]? := by
    rw [hs]
    exact List.getElem?_set_ne hpne
  have hres1 : resident tw1 p1 T1 := by
    obtain ⟨l0, hl0, hm⟩ := hres
    exact ⟨l0, hslot.trans hl0, hm⟩
  refine ⟨tw1, hrem, hslot, hres1, hc1, ?_, ?_⟩
  · intro hcur hcirc
    obtain ⟨tw2, fired, ht⟩ := tickHandler_some tw1 hwf1
    have hpn : tw1.currentPos.toNat = p1 := by omega
    exact ⟨tw2, fired, ht, (tickHandler_resident_cur tw1 tw2 fired ht T1 (hpn ▸ hres1)).2 hcirc⟩
  · intro hc0 hnd es tw2 fired hfr hnr hrun hlt
    have hsub := removeTask_ptrs tw tw1 (some k) hrem
    have htr := (track_task es tw1 tw2 fired (pendingPtrs tw) p1 T1 hwf1 (hnd.sublist hsub)
      (fun a ha => hsub.subset ha) hfr hres1 hc0
      (fun k1 hk1 => by
        rw [hk, Option.some.injEq] at hk1
        exact hk1 ▸ hnr) hrun).2
    rw [hn1, hc1] at htr
    exact (htr hlt).2

/-- Witness for C14: T1 (key 1, 5s) is admitted to the wheel of the scenario at cursor 0 and sits
in slot 4; after three ticks T2 (key 1, 5s) is admitted and sits in slot 7, which the index now
names.  removeTask(1) leaves bucket 4 alone and two more ticks fire T1. -/
theorem ghost_task_witness :
    ∃ tw fired0,
      run scenarioWheel
        [Event.add ⟨1, 5 * Second, 0, some 1, 10⟩, Event.tick, Event.tick, Event.tick,
          Event.add ⟨2, 5 * Second, 0, some 1, 20⟩] = some (tw, fired0) ∧
      tw.timer (some 1) = some 7 ∧
      ∃ tw1, removeTask tw (some 1) = some tw1 ∧ tw1.slots[4]? = tw.slots[4]? ∧
        resident tw1 4 ⟨1, 5 * Second, 0, some 1, 10⟩ ∧
        ∀ (tw2 : TimeWheel Nat Nat Unit) (fired : List (Task Nat Nat)),
          run tw1 [Event.tick, Event.tick] = some (tw2, fired) →
          (fired.map Task.ptr).count 1 = 1 ∧ (⟨1, 5 * Second, 0, some 1, 10⟩ : Task Nat Nat) ∈ fired := by
  obtain ⟨tw, fired0, h, hv⟩ := run_observe scenarioWheel
    [Event.add ⟨1, 5 * Second, 0, some 1, 10⟩, Event.tick, Event.tick, Event.tick,
      Event.add ⟨2, 5 * Second, 0, some 1, 20⟩]
    (fun r => decide (r.1.timer (some 1) = some 7 ∧
      r.1.slots[4]? = some [(⟨1, 5 * Second, 0, some 1, 10⟩ : Task Nat Nat)] ∧
      r.1.currentPos = 3 ∧
      r.1.slotNum = 10 ∧ pendingPtrs r.1 = [1, 2])) true (by decide)
  obtain ⟨hv1, hv2, hv3, hv4, hv5⟩ := of_decide_eq_true hv
  have hwf : WF tw := (run_WF _ scenarioWheel tw fired0
    (New_WF Second 10 (some ()) scenarioWheel rfl) h).1
  obtain ⟨tw1, hrem, hslot, hres1, _, _, htrack⟩ := ghost_task tw ⟨1, 5 * Second, 0, some 1, 10⟩ 1
    4 7 hwf ⟨_, hv2, List.mem_singleton.mpr rfl⟩ rfl hv1 (by decide)
  refine ⟨tw, fired0, h, hv1, tw1, hrem, hslot, hres1, ?_⟩
  intro tw2 fired hrun
  have := htrack (by decide) (by rw [hv5]; decide) [Event.tick, Event.tick] tw2 fired
    (freshPtrs_ticks 2 _) (remove_not_mem_ticks 2 (some 1)) hrun
    (by rw [hv3, hv4]; decide)
  exact this

/-- Evaluation for C13: two tasks with key 1 and delay 5s are admitted to the fresh wheel of the
scenario; both sit in bucket 4 and the index maps key 1 to slot 4.  removeTask(1) unlinks the
first of them only: afterwards bucket 4 still holds the second task, whose key is 1. -/
theorem removeTask_leaves_later_match :
    ∃ tw fired,
      run scenarioWheel
        [Event.add ⟨1, 5 * Second, 0, some 1, 10⟩, Event.add ⟨2, 5 * Second, 0, some 1, 20⟩] =
          some (tw, fired) ∧
      tw.timer (some 1) = some 4 ∧
      tw.slots[4]? = some [⟨1, 5 * Second, 0, some 1, 10⟩, ⟨2, 5 * Second, 0, some 1, 20⟩] ∧
      ∃ tw1, removeTask tw (some 1) = some tw1 ∧
        tw1.slots[4]? = some [⟨2, 5 * Second, 0, some 1, 20⟩] ∧ tw1.timer (some 1) = none := by
  obtain ⟨tw, fired, h, hv⟩ := run_observe scenarioWheel
    [Event.add ⟨1, 5 * Second, 0, some 1, 10⟩, Event.add ⟨2, 5 * Second, 0, some 1, 20⟩]
    (fun r => decide (r.1.timer (some 1) = some 4 ∧
      r.1.slots[4]? = some [(⟨1, 5 * Second, 0, some 1, 10⟩ : Task Nat Nat),
        (⟨2, 5 * Second, 0, some 1, 20⟩ : Task Nat Nat)] ∧
      (removeTask r.1 (some 1)).map (fun w => decide (w.slots[4]? =
        some [(⟨2, 5 * Second, 0, some 1, 20⟩ : Task Nat Nat)] ∧ w.timer (some 1) = none)) =
          some true))
    true (by decide)
  obtain ⟨hv1, hv2, hv3⟩ := of_decide_eq_true hv
  obtain ⟨tw1, hrem, hw⟩ := Option.map_eq_some'.mp hv3
  obtain ⟨hw1, hw2⟩ := of_decide_eq_true hw
  exact ⟨tw, fired, h, hv1, hv2, tw1, hrem, hw1, hw2⟩

/-- Evaluation for C17: on the fresh wheel of the scenario (interval 1s, N = 10, cursor 0) the
delay 500ms passes the guard of AddTask, getPositionAndCircle returns position -1, and addTask
panics on `tw.slots[-1]`. -/
theorem addTask_subsecond_out_of_range :
    New Second 10 (some ()) = some scenarioWheel ∧
    (AddTask 1 500000000 (some 1) 7 : List (Signal Nat Nat)) =
      [Signal.event (Event.add ⟨1, 500000000, 0, some 1, 7⟩)] ∧
    getPositionAndCircle scenarioWheel 500000000 = some (-1, 0) ∧
    addTask scenarioWheel ⟨1, 500000000, 0, some 1, 7⟩ = none ∧
    start scenarioWheel (AddTask 1 500000000 (some 1) 7) = none := by
  have hg : getPositionAndCircle scenarioWheel 500000000 = some (-1, 0) := by decide
  have ha : addTask scenarioWheel ⟨1, 500000000, 0, some 1, 7⟩ = none := by
    unfold addTask
    simp only [hg]
    rfl
  have hreq : (AddTask 1 500000000 (some 1) 7 : List (Signal Nat Nat)) =
      [Signal.event (Event.add ⟨1, 500000000, 0, some 1, 7⟩)] := by
    unfold AddTask
    rw [if_neg (by decide)]
  refine ⟨rfl, hreq, hg, ha, ?_⟩
  rw [hreq]
  simp only [start, step, ha, Option.map_none']

/-- Evaluation for C18: New accepts the interval 500ms with 10 slots; the interval truncated to
whole seconds is 0, so getPositionAndCircle divides by zero for the delay 1s and addTask
panics. -/
theorem subsecond_interval_divides_by_zero :
    New 500000000 10 (some ()) = some halfSecondWheel ∧
    seconds halfSecondWheel.interval = 0 ∧
    getPositionAndCircle halfSecondWheel Second = none ∧
    addTask halfSecondWheel ⟨1, Second, 0, some 1, 7⟩ = none := by
  have hg : getPositionAndCircle halfSecondWheel Second = none := by decide
  refine ⟨rfl, by decide, hg, ?_⟩
  unfold addTask
  simp only [hg]

end Timewheel
